import Mathlib

/-
Verification development for the ASR hypothesis-representation layer of the
alex dialogue system (alex/components/asr/utterance.py).

Modelling conventions:
* Python floats are modelled as exact rationals (ℚ).
* An Utterance is modelled by its token list (`List String`); the derived
  word-membership set is modelled by list membership, which is the invariant
  the Python class maintains.
* A word confusion network (UtteranceConfusionNetwork) is a structure holding
  the slot list `cn`, the parallel long-link table `long_links` and the stored
  word-membership set `wordset`.
* Methods that can raise Python exceptions (IndexError, TypeError,
  NotImplementedError, ...) are modelled in `Except PyErr` / `Option`;
  methods whose claimed behaviour assumes in-range accesses use `List.getD`
  with a default, together with well-formedness hypotheses in the theorems.
* Python `while` loops are modelled by structural recursion on an explicit
  fuel which is provably sufficient for the stated theorems.
-/

namespace Alex

/-- Replace the element at index `i` by `f` applied to it; out-of-range
indices leave the list unchanged (used to model in-place assignment to a
list cell that is known to exist). -/
def listModify (f : α → α) : Nat → List α → List α
  | _, [] => []
  | 0, x :: xs => f x :: xs
  | n + 1, x :: xs => x :: listModify f n xs

@[simp] theorem listModify_nil (f : α → α) (n : Nat) :
    listModify f n ([] : List α) = [] := by
  cases n <;> rfl

@[simp] theorem listModify_cons_zero (f : α → α) (x : α) (xs : List α) :
    listModify f 0 (x :: xs) = f x :: xs := rfl

@[simp] theorem listModify_cons_succ (f : α → α) (n : Nat) (x : α) (xs : List α) :
    listModify f (n + 1) (x :: xs) = x :: listModify f n xs := rfl

@[simp] theorem length_listModify (f : α → α) :
    ∀ (n : Nat) (l : List α), (listModify f n l).length = l.length
  | _, [] => by simp
  | 0, x :: xs => by simp
  | n + 1, x :: xs => by simp [length_listModify f n xs]

theorem getD_listModify_ne (f : α → α) (d : α) :
    ∀ (n i : Nat) (l : List α), n ≠ i →
      (listModify f n l).getD i d = l.getD i d
  | _, _, [], _ => by simp
  | 0, 0, x :: xs, h => absurd rfl h
  | 0, i + 1, x :: xs, _ => by simp
  | n + 1, 0, x :: xs, _ => by simp
  | n + 1, i + 1, x :: xs, h => by
    simp only [listModify_cons_succ, List.getD_cons_succ]
    exact getD_listModify_ne f d n i xs (by omega)

theorem getD_listModify_eq (f : α → α) (d : α) :
    ∀ (n : Nat) (l : List α), n < l.length →
      (listModify f n l).getD n d = f (l.getD n d)
  | _, [], h => by simp at h
  | 0, x :: xs, _ => by simp
  | n + 1, x :: xs, h => by
    simp only [listModify_cons_succ, List.getD_cons_succ]
    exact getD_listModify_eq f d n xs (by simpa using h)

/-- Helper for mkUtterance: splits a character list on spaces, dropping empty
fragments; `cur` holds the characters of the current word in reverse. -/
def wordsAux (cur : List Char) : List Char → List String
  | [] => if cur.isEmpty then [] else [String.mk cur.reverse]
  | c :: cs =>
    if c = ' ' then
      if cur.isEmpty then wordsAux [] cs
      else String.mk cur.reverse :: wordsAux [] cs
    else wordsAux (c :: cur) cs

/-- Tokenisation used by the Utterance constructor: the surface string is
split on runs of whitespace (Python str.split). -/
def mkUtterance (s : String) : List String :=
  wordsAux [] s.data

/-- The claim-side specification of a phrase occurrence: the words of `utt`
at positions `i .. i + p.length - 1` equal `p`. -/
def matchesAt (utt p : List String) (i : Nat) : Prop :=
  i + p.length ≤ utt.length ∧ ∀ j, j < p.length → utt.getD (i + j) "" = p.getD j ""

instance (utt p : List String) (i : Nat) : Decidable (matchesAt utt p i) := by
  unfold matchesAt; infer_instance

/-- Inner helper of Utterance.find modelling the maximal-skip computation:
the index of the next occurrence of the initial word within the phrase, or
the phrase length when there is none (utterance.py lines 177-184). -/
def maxSkipGo (w0 : String) (total : Nat) : List String → Nat → Nat
  | [], _ => total
  | w :: ws, k => if w = w0 then k else maxSkipGo w0 total ws (k + 1)

def maxSkip (p : List String) : Nat :=
  match p with
  | [] => 0
  | w0 :: rest => maxSkipGo w0 p.length rest 1

/-- Inner loop of Utterance.find checking the words of the phrase after the
initial one (utterance.py lines 193-197); returns the index of the first
mismatching phrase position, if any.  The counter `count` stands for the
number of positions still to check, so that the recursion is structural. -/
def firstMismatchGo (utt p : List String) (mi : Nat) : Nat → Nat → Option Nat
  | 0, _ => none
  | count + 1, j =>
    if utt.getD (mi + j) "" = p.getD j "" then firstMismatchGo utt p mi count (j + 1)
    else some j

def firstMismatch (utt p : List String) (mi : Nat) : Option Nat :=
  firstMismatchGo utt p mi (p.length - 1) 1

/-- Main scanning loop of Utterance.find (utterance.py lines 188-204); the
fuel argument bounds the number of iterations and `utt.length + 1` is always
sufficient since the match index strictly increases. -/
def findLoop (utt p : List String) : Nat → Nat → Int
  | 0, _ => -1
  | fuel + 1, mi =>
    if mi + p.length > utt.length then -1
    else if utt.getD mi "" = p.getD 0 "" then
      match firstMismatch utt p mi with
      | none => (mi : Int)
      | some j => findLoop utt p fuel (mi + min (maxSkip p) j)
    else findLoop utt p fuel (mi + 1)

namespace Utterance

/-- Utterance.find: word index of the first occurrence of `p`, or -1
(utterance.py lines 157-206).  The word-membership early reject uses the
wordset invariant (the set of words of the token list). -/
def find (utt p : List String) : Int :=
  if p.all (fun w => decide (w ∈ utt)) then findLoop utt p (utt.length + 1) 0
  else -1

end Utterance

/-- Reference function: the least match position at or after `mi`, searching
positions up to the utterance length. -/
def firstMatchFrom (utt p : List String) (mi : Nat) : Option Nat :=
  if _h : mi ≤ utt.length then
    if matchesAt utt p mi then some mi
    else firstMatchFrom utt p (mi + 1)
  else none
termination_by utt.length + 1 - mi

theorem not_matchesAt_of_long (utt p : List String) (i : Nat)
    (h : utt.length < i + p.length) : ¬ matchesAt utt p i := by
  intro hm; exact absurd hm.1 (by omega)

theorem matchesAt_getD (utt p : List String) (i : Nat) (h : matchesAt utt p i) :
    ∀ j, j < p.length → utt.getD (i + j) "" = p.getD j "" := h.2

theorem maxSkipGo_spec (w0 : String) (total : Nat) :
    ∀ (ws : List String) (k d : Nat), k ≤ d → d < maxSkipGo w0 total ws k →
      d - k < ws.length → ws.getD (d - k) "" ≠ w0 := by
  intro ws
  induction ws with
  | nil => intro k d _ _ h3; simp at h3
  | cons w ws ih =>
    intro k d h1 h2 h3
    simp only [maxSkipGo] at h2
    by_cases hw : w = w0
    · simp [hw] at h2; omega
    · simp only [if_neg hw] at h2
      rcases Nat.eq_or_lt_of_le h1 with heq | hlt
      · subst heq; simpa using hw
      · have hd : d - k = (d - (k + 1)) + 1 := by omega
        rw [hd, List.getD_cons_succ]
        exact ih (k + 1) d (by omega) h2 (by simp at h3; omega)

theorem maxSkip_spec (p : List String) (d : Nat) (h1 : 1 ≤ d)
    (h2 : d < maxSkip p) (h3 : d < p.length) : p.getD d "" ≠ p.getD 0 "" := by
  match p with
  | [] => simp at h3
  | w0 :: rest =>
    simp only [maxSkip] at h2
    have hd : d = (d - 1) + 1 := by omega
    rw [hd, List.getD_cons_succ, List.getD_cons_zero]
    exact maxSkipGo_spec w0 (w0 :: rest).length rest 1 d h1 h2 (by simp at h3 ⊢; omega)

theorem maxSkipGo_pos (w0 : String) (total : Nat) (htot : 1 ≤ total) :
    ∀ (ws : List String) (k : Nat), 1 ≤ k → 1 ≤ maxSkipGo w0 total ws k := by
  intro ws
  induction ws with
  | nil => intro k _; simpa [maxSkipGo] using htot
  | cons w ws ih =>
    intro k hk
    simp only [maxSkipGo]
    by_cases hw : w = w0
    · simpa [hw] using hk
    · simpa [hw] using ih (k + 1) (by omega)

theorem maxSkip_pos (p : List String) (hp : p ≠ []) : 1 ≤ maxSkip p := by
  match p with
  | [] => exact absurd rfl hp
  | w0 :: rest =>
    exact maxSkipGo_pos w0 (w0 :: rest).length (by simp) rest 1 (by omega)

theorem firstMismatchGo_spec (utt p : List String) (mi : Nat) :
    ∀ (count j : Nat), count + j = p.length →
      ((firstMismatchGo utt p mi count j = none →
          ∀ d, j ≤ d → d < p.length → utt.getD (mi + d) "" = p.getD d "") ∧
       (∀ x, firstMismatchGo utt p mi count j = some x →
          j ≤ x ∧ x < p.length ∧ utt.getD (mi + x) "" ≠ p.getD x "" ∧
          ∀ d, j ≤ d → d < x → utt.getD (mi + d) "" = p.getD d "")) := by
  intro count
  induction count with
  | zero =>
    intro j hj
    constructor
    · intro _ d h1 h2; omega
    · intro x hx; simp [firstMismatchGo] at hx
  | succ count ih =>
    intro j hj
    simp only [firstMismatchGo]
    by_cases heq : utt.getD (mi + j) "" = p.getD j ""
    · simp only [if_pos heq]
      obtain ⟨ihn, ihs⟩ := ih (j + 1) (by omega)
      constructor
      · intro hnone d h1 h2
        rcases Nat.eq_or_lt_of_le h1 with h | h
        · subst h; exact heq
        · exact ihn hnone d h h2
      · intro x hx
        obtain ⟨a, b, c, e⟩ := ihs x hx
        refine ⟨by omega, b, c, ?_⟩
        intro d h1 h2
        rcases Nat.eq_or_lt_of_le h1 with h | h
        · subst h; exact heq
        · exact e d h h2
    · simp only [if_neg heq]
      constructor
      · intro h; simp at h
      · intro x hx
        have hxj : x = j := by simpa using hx.symm
        subst hxj
        exact ⟨le_refl _, by omega, heq, by intro d h1 h2; omega⟩

theorem fm_some_implies (utt p : List String) :
    ∀ (n mi i : Nat), utt.length + 1 - mi ≤ n → firstMatchFrom utt p mi = some i →
      mi ≤ i ∧ matchesAt utt p i ∧ ∀ j, mi ≤ j → j < i → ¬ matchesAt utt p j := by
  intro n
  induction n with
  | zero =>
    intro mi i hle h
    rw [firstMatchFrom] at h
    have : ¬ (mi ≤ utt.length) := by omega
    simp [this] at h
  | succ n ih =>
    intro mi i hle h
    rw [firstMatchFrom] at h
    by_cases hmi : mi ≤ utt.length
    · simp only [dif_pos hmi] at h
      by_cases hm : matchesAt utt p mi
      · simp only [if_pos hm, Option.some.injEq] at h
        subst h
        exact ⟨le_refl _, hm, by intro j h1 h2; omega⟩
      · simp only [if_neg hm] at h
        obtain ⟨a, b, c⟩ := ih (mi + 1) i (by omega) h
        refine ⟨by omega, b, ?_⟩
        intro j h1 h2
        rcases Nat.eq_or_lt_of_le h1 with hj | hj
        · subst hj; exact hm
        · exact c j hj h2
    · simp [hmi] at h

theorem fm_none_implies (utt p : List String) (hp : p ≠ []) :
    ∀ (n mi : Nat), utt.length + 1 - mi ≤ n → firstMatchFrom utt p mi = none →
      ∀ j, mi ≤ j → ¬ matchesAt utt p j := by
  intro n
  induction n with
  | zero =>
    intro mi hle _ j hj
    apply not_matchesAt_of_long
    have : 1 ≤ p.length := List.length_pos.mpr hp
    omega
  | succ n ih =>
    intro mi hle h j hj
    rw [firstMatchFrom] at h
    by_cases hmi : mi ≤ utt.length
    · simp only [dif_pos hmi] at h
      by_cases hm : matchesAt utt p mi
      · simp [hm] at h
      · simp only [if_neg hm] at h
        rcases Nat.eq_or_lt_of_le hj with hj2 | hj2
        · subst hj2; exact hm
        · exact ih (mi + 1) (by omega) h j hj2
    · apply not_matchesAt_of_long
      have : 1 ≤ p.length := List.length_pos.mpr hp
      omega

theorem fm_none_of (utt p : List String) (mi : Nat)
    (h : ∀ j, mi ≤ j → ¬ matchesAt utt p j) : firstMatchFrom utt p mi = none := by
  cases hfm : firstMatchFrom utt p mi with
  | none => rfl
  | some i =>
    obtain ⟨a, b, _⟩ := fm_some_implies utt p (utt.length + 1 - mi) mi i (le_refl _) hfm
    exact absurd b (h i a)

theorem fm_step (utt p : List String) (mi : Nat) (h : ¬ matchesAt utt p mi) :
    firstMatchFrom utt p mi = firstMatchFrom utt p (mi + 1) := by
  by_cases hmi : mi ≤ utt.length
  · rw [firstMatchFrom]
    simp [hmi, h]
  · rw [firstMatchFrom, firstMatchFrom]
    have h2 : ¬ (mi + 1 ≤ utt.length) := by omega
    simp [hmi, h2]

theorem fm_steps (utt p : List String) :
    ∀ (s mi : Nat), (∀ d, d < s → ¬ matchesAt utt p (mi + d)) →
      firstMatchFrom utt p mi = firstMatchFrom utt p (mi + s) := by
  intro s
  induction s with
  | zero => intro mi _; rfl
  | succ s ih =>
    intro mi h
    rw [fm_step utt p mi (by simpa using h 0 (by omega))]
    have := ih (mi + 1) (fun d hd => by
      have := h (d + 1) (by omega)
      simpa [Nat.add_assoc, Nat.add_comm 1 d] using this)
    rw [this]
    ring_nf

theorem findLoop_eq (utt p : List String) (hp : p ≠ []) :
    ∀ (fuel mi : Nat), utt.length + 1 ≤ fuel + mi →
      findLoop utt p fuel mi =
        (match firstMatchFrom utt p mi with
         | some i => (i : Int)
         | none => -1) := by
  have hplen : 1 ≤ p.length := List.length_pos.mpr hp
  intro fuel
  induction fuel with
  | zero =>
    intro mi hle
    have hnone : firstMatchFrom utt p mi = none := by
      apply fm_none_of
      intro j hj
      apply not_matchesAt_of_long
      omega
    simp [findLoop, hnone]
  | succ fuel ih =>
    intro mi hle
    simp only [findLoop]
    by_cases hbound : mi + p.length > utt.length
    · have hnone : firstMatchFrom utt p mi = none := by
        apply fm_none_of
        intro j hj
        apply not_matchesAt_of_long
        omega
      simp [hbound, hnone]
    · simp only [if_neg hbound]
      by_cases hhead : utt.getD mi "" = p.getD 0 ""
      · simp only [if_pos hhead]
        cases hfm : firstMismatch utt p mi with
        | none =>
          have hmm : matchesAt utt p mi := by
            refine ⟨by omega, ?_⟩
            intro j hj
            rcases Nat.eq_zero_or_pos j with hj0 | hj0
            · subst hj0; simpa using hhead
            · have hspec := (firstMismatchGo_spec utt p mi (p.length - 1) 1 (by omega)).1
              unfold firstMismatch at hfm
              exact hspec hfm j (by omega) hj
          have : firstMatchFrom utt p mi = some mi := by
            rw [firstMatchFrom]
            simp [show mi ≤ utt.length by omega, hmm]
          simp [this]
        | some j =>
          have hspec := (firstMismatchGo_spec utt p mi (p.length - 1) 1 (by omega)).2 j
            (by unfold firstMismatch at hfm; exact hfm)
          obtain ⟨hj1, hj2, hj3, hj4⟩ := hspec
          set s := min (maxSkip p) j with hs
          have hs1 : 1 ≤ s := by
            have := maxSkip_pos p hp
            omega
          have hnomatch : ∀ d, d < s → ¬ matchesAt utt p (mi + d) := by
            intro d hd hmm
            rcases Nat.eq_zero_or_pos d with hd0 | hd0
            · subst hd0
              exact hj3 (by simpa using matchesAt_getD utt p mi (by simpa using hmm) j hj2)
            · have h1 : utt.getD (mi + d) "" = p.getD d "" := hj4 d hd0 (by omega)
              have h2 : utt.getD (mi + d) "" = p.getD 0 "" := by
                have := matchesAt_getD utt p (mi + d) hmm 0 (by omega)
                simpa using this
              exact maxSkip_spec p d hd0 (by omega) (by omega) (h1 ▸ h2)
          rw [fm_steps utt p s mi hnomatch]
          exact ih (mi + s) (by omega)
      · simp only [if_neg hhead]
        have hnm : ¬ matchesAt utt p mi := by
          intro hmm
          exact hhead (by simpa using matchesAt_getD utt p mi hmm 0 (by omega))
        rw [fm_steps utt p 1 mi (by intro d hd; interval_cases d; simpa using hnm)]
        exact ih (mi + 1) (by omega)

theorem find_eq_fm (utt p : List String) (hp : p ≠ []) :
    Utterance.find utt p =
      (match firstMatchFrom utt p 0 with
       | some i => (i : Int)
       | none => -1) := by
  unfold Utterance.find
  by_cases hall : p.all (fun w => decide (w ∈ utt)) = true
  · rw [if_pos hall]
    exact findLoop_eq utt p hp (utt.length + 1) 0 (by omega)
  · rw [if_neg hall]
    have hnone : firstMatchFrom utt p 0 = none := by
      apply fm_none_of
      intro j _ hmm
      apply hall
      rw [List.all_eq_true]
      intro w hw
      rw [decide_eq_true_eq]
      obtain ⟨k, hk, hkw⟩ := List.mem_iff_getElem.mp hw
      have h1 : utt.getD (j + k) "" = p.getD k "" := matchesAt_getD utt p j hmm k hk
      have h2 : p.getD k "" = w := by
        rw [List.getD_eq_getElem?_getD, List.getElem?_eq_getElem hk]
        simpa using hkw
      have h3 : j + k < utt.length := by
        have := hmm.1
        omega
      have h4 : utt.getD (j + k) "" = utt[j + k] := by
        rw [List.getD_eq_getElem?_getD, List.getElem?_eq_getElem h3]
        rfl
      have : w ∈ utt := by
        rw [← h2, ← h1, h4]
        exact List.getElem_mem h3
      exact this
    simp [hnone]

/-- C4: Utterance.find returns the smallest index where the phrase occurs,
and -1 when there is none (the skip-search optimisation preserves leftmost
occurrence semantics); in particular the book-a-table scenario. -/
theorem find_leftmost_correct :
    (∀ utt p : List String, p ≠ [] →
      ((∃ i, matchesAt utt p i) →
        ∃ i : Nat, Utterance.find utt p = (i : Int) ∧ matchesAt utt p i ∧
          ∀ j, j < i → ¬ matchesAt utt p j) ∧
      ((∀ i, ¬ matchesAt utt p i) → Utterance.find utt p = -1)) ∧
    Utterance.find (mkUtterance "book a table for two") ["table", "for"] = 2 := by
  constructor
  · intro utt p hp
    constructor
    · rintro ⟨i, hi⟩
      rw [find_eq_fm utt p hp]
      cases hfm : firstMatchFrom utt p 0 with
      | none =>
        exact absurd hi (fm_none_implies utt p hp (utt.length + 1) 0 (by omega) hfm i (by omega))
      | some k =>
        obtain ⟨_, b, c⟩ := fm_some_implies utt p (utt.length + 1) 0 k (by omega) hfm
        exact ⟨k, by simp, b, fun j hj => c j (by omega) hj⟩
    · intro hnone
      rw [find_eq_fm utt p hp]
      rw [fm_none_of utt p 0 (fun j _ => hnone j)]
  · decide

/-- Witness for C4 at a concrete input. -/
theorem find_leftmost_correct_witness :
    Utterance.find ["b", "a", "b"] ["a", "b"] = 1 := by
  obtain ⟨h, _⟩ := find_leftmost_correct
  obtain ⟨i, h1, h2, h3⟩ := (h ["b", "a", "b"] ["a", "b"] (by decide)).1 ⟨1, by decide⟩
  have hi : i = 1 := by
    by_contra hne
    rcases Nat.lt_or_ge i 1 with hlt | hge
    · exact absurd (h3 ·) (by
        intro hall
        interval_cases i
        exact absurd h2 (by decide))
    · have : ¬ matchesAt ["b", "a", "b"] ["a", "b"] 1 → False := fun hc => hc (by decide)
      exact this (h3 1 (by omega))
  rw [hi] at h1
  exact h1

/-- Sentence boundary markers (utterance.py lines 23-24). -/
def SENTENCE_START : String := "<s>"

def SENTENCE_END : String := "</s>"

/-- Python exception kinds raised by the modelled code. -/
inductive PyErr where
  | valueError
  | indexError
  | typeError
  | assertionError
  | notImplementedError
  | confnetException
deriving DecidableEq

/-- Python slice l[i:] including negative-index semantics. -/
def pySliceFrom (l : List α) (i : Int) : List α :=
  if 0 ≤ i then l.drop i.toNat else l.drop (l.length - (-i).toNat)

/-- Python slice l[:j] including negative-index semantics. -/
def pySliceTo (l : List α) (j : Int) : List α :=
  if 0 ≤ j then l.take j.toNat else l.take (l.length - (-j).toNat)

namespace Utterance

/-- Utterance.iter_ngrams (utterance.py lines 245-261), with the generator
modelled as the list of yielded windows, in yield order. -/
def iterNgrams (utt : List String) (n : Nat) (wb : Bool) : List (List String) :=
  let minLen : Int := (n : Int) - (if wb then 2 else 0)
  if (utt.length : Int) ≤ minLen then
    if (utt.length : Int) = minLen then
      if wb then [SENTENCE_START :: (utt ++ [SENTENCE_END])] else [utt]
    else []
  else
    (if wb ∧ minLen < (utt.length : Int) then
        [SENTENCE_START :: pySliceTo utt ((n : Int) - 1)]
      else []) ++
    (List.range ((utt.length : Int) - n + 1).toNat).map
      (fun i => (utt.drop i).take n) ++
    (if wb then [pySliceFrom utt (-((n : Int) - 1)) ++ [SENTENCE_END]] else [])

/-- Utterance.index (utterance.py lines 142-155): raises ValueError exactly
when find returns the -1 sentinel. -/
def index (utt p : List String) : Except PyErr Int :=
  let i := find utt p
  if i = -1 then Except.error PyErr.valueError else Except.ok i

end Utterance

/-- C7 counterexample: for n = 1 with boundaries, the final yielded window
is the whole utterance followed by the end marker (Python slice
utt[-(n-1):] is utt[-0:], the whole list), so not every window has exactly
n tokens: on the two-word utterance a window of length 3 is yielded. -/
theorem iter_ngrams_exact_length_fails :
    ["a", "b", SENTENCE_END] ∈ Utterance.iterNgrams ["a", "b"] 1 true ∧
    (["a", "b", SENTENCE_END] : List String).length ≠ 1 := by
  decide

/-- C7 amended: for n ≥ 2, or without boundary markers, every yielded
window is a list of exactly n tokens (for n = 1 with boundaries the final
window is the whole utterance plus the end marker instead); and whenever
the utterance length is at most the effective window size (n-2 with
boundaries, n without), at most one window is yielded. -/
theorem iter_ngrams_window_lengths :
    ∀ (utt : List String) (n : Nat) (wb : Bool), 1 ≤ n →
      ((wb = false ∨ 2 ≤ n) →
        ∀ w ∈ Utterance.iterNgrams utt n wb, w.length = n) ∧
      ((utt.length : Int) ≤ (n : Int) - (if wb then 2 else 0) →
        (Utterance.iterNgrams utt n wb).length ≤ 1) := by
  intro utt n wb hn
  have hslice1 : pySliceTo utt ((n : Int) - 1) = utt.take (n - 1) := by
    unfold pySliceTo
    rw [if_pos (by omega : (0 : Int) ≤ (n : Int) - 1)]
    congr 1
    omega
  have hslice2 : 2 ≤ n → pySliceFrom utt (-((n : Int) - 1)) = utt.drop (utt.length - (n - 1)) := by
    intro h2
    unfold pySliceFrom
    rw [if_neg (by omega : ¬ (0 : Int) ≤ -((n : Int) - 1))]
    congr 1
    omega
  constructor
  · intro hcase w hw
    cases wb with
    | false =>
      simp only [Utterance.iterNgrams, Bool.false_eq_true, if_false, false_and,
        Int.sub_zero, List.append_nil, List.nil_append] at hw
      split at hw
      next hshort =>
        split at hw
        next heq =>
          simp only [List.mem_singleton] at hw
          subst hw
          omega
        next heq => simp at hw
      next hshort =>
        simp only [List.mem_map, List.mem_range] at hw
        obtain ⟨i, hi, hwi⟩ := hw
        subst hwi
        simp only [List.length_take, List.length_drop]
        omega
    | true =>
      have hn2 : 2 ≤ n := hcase.resolve_left (by simp)
      simp only [Utterance.iterNgrams, if_true, true_and] at hw
      split at hw
      next hshort =>
        split at hw
        next heq =>
          simp only [List.mem_singleton] at hw
          subst hw
          simp only [List.length_cons, List.length_append, List.length_singleton,
            List.length_nil]
          omega
        · simp at hw
      next hshort =>
        simp only [List.mem_append, List.mem_map, List.mem_range] at hw
        rcases hw with (hw | hw) | hw
        · split at hw
          · simp only [List.mem_singleton] at hw
            subst hw
            simp only [List.length_cons, hslice1, List.length_take]
            omega
          · simp at hw
        · obtain ⟨i, hi, hwi⟩ := hw
          subst hwi
          simp only [List.length_take, List.length_drop]
          omega
        · simp only [List.mem_singleton] at hw
          subst hw
          simp only [List.length_append, List.length_singleton, List.length_nil,
            List.length_cons, hslice2 hn2, List.length_drop]
          omega
  · intro hshort
    unfold Utterance.iterNgrams
    rw [if_pos hshort]
    by_cases heq : (utt.length : Int) = (n : Int) - (if wb then 2 else 0)
    · rw [if_pos heq]
      cases wb <;> simp
    · rw [if_neg heq]
      simp

/-- Witness for C7 at concrete inputs. -/
theorem iter_ngrams_window_lengths_witness :
    (∀ w ∈ Utterance.iterNgrams ["a", "b", "c"] 2 true, w.length = 2) ∧
    (Utterance.iterNgrams ["a"] 3 true).length ≤ 1 := by
  refine ⟨(iter_ngrams_window_lengths ["a", "b", "c"] 2 true (by omega)).1 (Or.inr (by omega)), ?_⟩
  exact (iter_ngrams_window_lengths ["a"] 3 true (by omega)).2 (by simp)

/-- A long link of the confusion network (utterance.py line 578):
named tuple (end, orig_probs, hyp) where hyp = (probability, phrase).
The Python field name end is spelled end_ here. -/
structure LongLink where
  end_ : Nat
  orig_probs : List ℚ
  hyp : ℚ × List String
deriving DecidableEq

/-- UtteranceConfusionNetwork state (utterance.py lines 581-592): the slot
list `cn` of (probability, word) alternatives, the parallel long-link table
and the stored word-membership set (a Python set, modelled as a list used
only through membership). -/
structure UtteranceConfusionNetwork where
  cn : List (List (ℚ × String))
  long_links : List (List LongLink)
  wordset : List String
deriving DecidableEq

abbrev UCN := UtteranceConfusionNetwork

namespace UtteranceConfusionNetwork

/-- The stale value that the Python variable l_idx holds when the mid-link
phase of get_phrase_idxs runs: the scan loop last bound it while
enumerating the long links of the last slot in [start, end) whose link list
is non-empty (the mid-link phase is reachable only when such a slot
exists). -/
def staleLIdx (net : UCN) (start end_ : Nat) : Nat :=
  let nonempty := (List.range' start (end_ - start)).filter
    (fun i => ¬ (net.long_links.getD i []).isEmpty)
  match nonempty.getLast? with
  | some i => (net.long_links.getD i []).length - 1
  | none => 0

/-- UtteranceConfusionNetwork.get_phrase_idxs (utterance.py lines 901-992),
fuelled so that the recursion is structural; `phrase.length + 1` fuel is
sufficient for well-formed networks since every recursive call shortens the
phrase.  Index triples are (word index, alternative index, intra-link
offset); a negative word index -i marks a step through a long link starting
at slot i. -/
def getPhraseIdxsFuel (net : UCN) :
    Nat → List String → Nat → Nat → Bool → List (Int × Nat × Nat)
  | 0, _, _, _, _ => []
  | fuel + 1, phrase, start, end_, sim =>
    match phrase with
    | [] => [((start : Int), 0, 0)]
    | word :: rest =>
      if end_ ≤ start then []
      else if ¬ ((word :: rest).all (fun w => decide (w ∈ net.wordset))) then []
      else
        let scan := (List.range' start (end_ - start)).findSome? (fun start_idx =>
          let alts := net.cn.getD start_idx []
          let matching := (List.range alts.length).filter
            (fun aidx => (alts.getD aidx (0, "")).2 = word)
          let fromAlts : Option (List (Int × Nat × Nat)) :=
            match matching with
            | [] => none
            | aidx :: _ =>
              if rest = [] then some [((start_idx : Int), aidx, 0)]
              else
                let sub := getPhraseIdxsFuel net fuel rest (start_idx + 1) end_ false
                if sub = [] then none else some (((start_idx : Int), aidx, 0) :: sub)
          match fromAlts with
          | some r => some r
          | none =>
            let links := net.long_links.getD start_idx []
            (List.range links.length).findSome? (fun l_idx =>
              let link := links.getD l_idx ⟨0, [], (0, [])⟩
              let lphr := link.hyp.2
              if lphr.length = (word :: rest).length then
                if lphr = word :: rest then some [(-(start_idx : Int), l_idx, 0)]
                else none
              else if lphr.length < (word :: rest).length then
                if link.end_ ≤ end_ ∧ lphr = (word :: rest).take lphr.length then
                  let sub := getPhraseIdxsFuel net fuel
                    ((word :: rest).drop lphr.length) link.end_ end_ false
                  if sub = [] then none
                  else some ((-(start_idx : Int), l_idx, 0) :: sub)
                else none
              else none))
        match scan with
        | some r => r
        | none =>
          if sim then
            let stale := staleLIdx net start end_
            let phraseLinks := (List.range' start (end_ - start)).flatMap
              (fun start_idx =>
                ((net.long_links.getD start_idx []).filter
                  (fun link => start < link.end_)).map (fun link => (start_idx, link)))
            let mids := phraseLinks.findSome? (fun pr =>
              let lphr := pr.2.hyp.2
              (List.range' 1 (lphr.length - 1)).findSome? (fun lsidx =>
                let lsuffix := lphr.drop lsidx
                if lsuffix = (word :: rest).take lsuffix.length then
                  let sub := getPhraseIdxsFuel net fuel
                    ((word :: rest).drop lsuffix.length) pr.2.end_ end_ false
                  if sub = [] then none
                  else some ((-(pr.1 : Int), stale, lsidx) :: sub)
                else none))
            match mids with
            | some r => r
            | none => []
          else []

/-- Entry point with Python defaults: end = None resolves to the slot
count. -/
def getPhraseIdxs (net : UCN) (phrase : List String) (start : Nat)
    (end? : Option Nat) (sim : Bool) : List (Int × Nat × Nat) :=
  getPhraseIdxsFuel net (phrase.length + 1) phrase start
    (end?.getD net.cn.length) sim

/-- UtteranceConfusionNetwork.find (utterance.py lines 724-729). -/
def find (net : UCN) (phrase : List String) (start : Nat) (end? : Option Nat) :
    Int :=
  match getPhraseIdxs net phrase start end? true with
  | [] => -1
  | (widx, _, _) :: _ => (widx.natAbs : Int)

/-- UtteranceConfusionNetwork.index (utterance.py lines 688-693): note the
source passes neither start nor end on to find. -/
def index (net : UCN) (phrase : List String) (_start : Nat)
    (_end? : Option Nat) : Except PyErr Int :=
  let i := find net phrase 0 none
  if i = -1 then Except.error PyErr.valueError else Except.ok i

end UtteranceConfusionNetwork

/-- Concrete one-slot confusion network used in counterexamples. -/
def netOneSlot : UCN := ⟨[[(1, "x")]], [[]], ["x"]⟩

/-- C6 counterexample: for the empty phrase, get_phrase_idxs does not
return an empty result; it returns the single marker triple
(start, 0, 0) (utterance.py lines 928-930). -/
theorem get_phrase_idxs_empty_phrase_not_empty :
    UtteranceConfusionNetwork.getPhraseIdxs netOneSlot [] 0 none true = [(0, 0, 0)] ∧
    UtteranceConfusionNetwork.getPhraseIdxs netOneSlot [] 0 none true ≠ [] := by
  decide

/-- C6 amended: get_phrase_idxs returns the marker [(start, 0, 0)] when the
phrase is empty, and an empty result when the phrase is non-empty and
either the (resolved) end bound is at most start or some phrase word is
missing from the membership word set; correspondingly Utterance.find
returns -1 whenever some phrase word is missing from the utterance word
set. -/
theorem get_phrase_idxs_fast_reject :
    (∀ (net : UCN) (p : List String) (start : Nat) (end? : Option Nat) (sim : Bool),
      (p = [] →
        UtteranceConfusionNetwork.getPhraseIdxs net p start end? sim = [((start : Int), 0, 0)]) ∧
      (p ≠ [] → end?.getD net.cn.length ≤ start →
        UtteranceConfusionNetwork.getPhraseIdxs net p start end? sim = []) ∧
      (p ≠ [] → (∃ w ∈ p, w ∉ net.wordset) →
        UtteranceConfusionNetwork.getPhraseIdxs net p start end? sim = [])) ∧
    (∀ utt p : List String, p ≠ [] → (∃ w ∈ p, w ∉ utt) →
      Utterance.find utt p = -1) := by
  constructor
  · intro net p start end? sim
    refine ⟨?_, ?_, ?_⟩
    · intro hp
      subst hp
      rfl
    · intro hp hle
      match p with
      | [] => exact absurd rfl hp
      | w :: rest =>
        unfold UtteranceConfusionNetwork.getPhraseIdxs UtteranceConfusionNetwork.getPhraseIdxsFuel
        simp only [if_pos hle]
    · intro hp hw
      match p with
      | [] => exact absurd rfl hp
      | w :: rest =>
        unfold UtteranceConfusionNetwork.getPhraseIdxs UtteranceConfusionNetwork.getPhraseIdxsFuel
        obtain ⟨x, hx1, hx2⟩ := hw
        have hall : ¬ ((w :: rest).all (fun y => decide (y ∈ net.wordset)) = true) := by
          rw [List.all_eq_true]
          intro hc
          exact hx2 (by simpa using hc x hx1)
        by_cases hle : end?.getD net.cn.length ≤ start
        · simp [hle]
        · simp [hle, hall]
  · intro utt p hp hw
    unfold Utterance.find
    obtain ⟨x, hx1, hx2⟩ := hw
    have hall : ¬ (p.all (fun y => decide (y ∈ utt)) = true) := by
      rw [List.all_eq_true]
      intro hc
      exact hx2 (by simpa using hc x hx1)
    rw [if_neg hall]

/-- Witness for C6 at concrete inputs. -/
theorem get_phrase_idxs_fast_reject_witness :
    UtteranceConfusionNetwork.getPhraseIdxs netOneSlot ["x"] 0 (some 0) true = [] ∧
    UtteranceConfusionNetwork.getPhraseIdxs netOneSlot ["y"] 0 none true = [] ∧
    Utterance.find ["a"] ["b"] = -1 := by
  refine ⟨?_, ?_, ?_⟩
  · exact ((get_phrase_idxs_fast_reject.1 netOneSlot ["x"] 0 (some 0) true).2.1
      (by decide) (by decide))
  · exact ((get_phrase_idxs_fast_reject.1 netOneSlot ["y"] 0 none true).2.2
      (by decide) ⟨"y", by decide, by decide⟩)
  · exact (get_phrase_idxs_fast_reject.2 ["a"] ["b"] (by decide)
      ⟨"b", by decide, by decide⟩)

/-- C8: index raises ValueError exactly when find returns the -1 sentinel,
and otherwise returns exactly the index find returns, for both Utterance
and UtteranceConfusionNetwork (the latter ignores its start/end arguments
when calling find); find itself is total and signals absence only through
the -1 sentinel. -/
theorem index_raises_iff_find_sentinel :
    (∀ utt p : List String, p ≠ [] →
      (Utterance.index utt p = Except.error PyErr.valueError ↔
        Utterance.find utt p = -1) ∧
      (Utterance.find utt p ≠ -1 →
        Utterance.index utt p = Except.ok (Utterance.find utt p))) ∧
    (∀ (net : UCN) (p : List String) (st : Nat) (e? : Option Nat),
      (UtteranceConfusionNetwork.index net p st e? = Except.error PyErr.valueError ↔
        UtteranceConfusionNetwork.find net p 0 none = -1) ∧
      (UtteranceConfusionNetwork.find net p 0 none ≠ -1 →
        UtteranceConfusionNetwork.index net p st e? =
          Except.ok (UtteranceConfusionNetwork.find net p 0 none))) := by
  constructor
  · intro utt p _
    unfold Utterance.index
    by_cases h : Utterance.find utt p = -1
    · simp [h]
    · simp [h]
  · intro net p st e?
    unfold UtteranceConfusionNetwork.index
    by_cases h : UtteranceConfusionNetwork.find net p 0 none = -1
    · simp [h]
    · simp [h]

/-- Witness for C8 at concrete inputs. -/
theorem index_raises_iff_find_sentinel_witness :
    Utterance.index ["a", "b"] ["b"] = Except.ok 1 ∧
    UtteranceConfusionNetwork.index netOneSlot ["y"] 0 none =
      Except.error PyErr.valueError := by
  constructor
  · have h := (index_raises_iff_find_sentinel.1 ["a", "b"] ["b"] (by decide)).2
      (by decide)
    rw [show Utterance.find ["a", "b"] ["b"] = 1 from by decide] at h
    exact h
  · exact ((index_raises_iff_find_sentinel.2 netOneSlot ["y"] 0 none).1).mpr
      (by decide)

namespace UtteranceConfusionNetwork

/-- Slot loop of UtteranceConfusionNetwork.prune (utterance.py lines
1083-1104).  Returns none when the Python code would raise IndexError:
either alts[0] on an empty slot, or pruned_alts[0] after every alternative
of the slot was filtered out.  Note the source appends the original alts,
not pruned_alts, to the result (line 1102). -/
def pruneGo (pp : ℚ) : List (List (ℚ × String)) → Option (List (List (ℚ × String)))
  | [] => some []
  | [] :: _ => none
  | ((p0, w0) :: atail) :: rest =>
    if w0 = "" ∧ 1 - pp < p0 then pruneGo pp rest
    else
      match ((p0, w0) :: atail).filter (fun hyp => ¬ (hyp.1 < pp)) with
      | [] => none
      | (_, w) :: prest =>
        if w = "" ∧ prest = [] then pruneGo pp rest
        else (pruneGo pp rest).map (fun l => ((p0, w0) :: atail) :: l)

/-- UtteranceConfusionNetwork.prune: rebuilds cn and recomputes the wordset
from the surviving slots (long-link words are not included, mirroring line
1105). -/
def prune (pp : ℚ) (net : UCN) : Option UCN :=
  (pruneGo pp net.cn).map (fun newCn =>
    { net with
        cn := newCn,
        wordset := newCn.flatMap (fun alts => alts.map Prod.snd) })

end UtteranceConfusionNetwork

/-- Concrete network for the C5 failing input. -/
def netLowAlt : UCN := ⟨[[(9/10, "a"), (1/10, "b")]], [[]], ["a", "b"]⟩

/-- C5: the code contradicts the claimed pruning of low-probability
alternatives.  On a slot [(0.9, a), (0.1, b)] with prune_prob = 0.5 the
alternative (0.1, b), which is below the floor, survives prune because line
1102 appends the original alts instead of pruned_alts. -/
theorem prune_keeps_low_prob_alternative :
    UtteranceConfusionNetwork.prune (1/2) netLowAlt =
      some ⟨[[(9/10, "a"), (1/10, "b")]], [[]], ["a", "b"]⟩ ∧
    ((1 : ℚ)/10 < 1/2) := by
  constructor
  · norm_num [UtteranceConfusionNetwork.prune, UtteranceConfusionNetwork.pruneGo,
      netLowAlt]
    simp
  · norm_num

theorem pruneGo_none_of_allLow (pp : ℚ) :
    ∀ (cns : List (List (ℚ × String))),
      (∃ alts ∈ cns, ∃ p0 w0 tail, alts = (p0, w0) :: tail ∧
        ¬ (w0 = "" ∧ 1 - pp < p0) ∧ ∀ hyp ∈ alts, hyp.1 < pp) →
      UtteranceConfusionNetwork.pruneGo pp cns = none := by
  intro cns
  induction cns with
  | nil => rintro ⟨alts, h, _⟩; simp at h
  | cons alts rest ih =>
    rintro ⟨alts2, hmem, p0, w0, tail, heq, hsil, hlow⟩
    rcases List.mem_cons.mp hmem with hhead | htail
    · subst hhead
      subst heq
      rw [UtteranceConfusionNetwork.pruneGo, if_neg hsil]
      have hfilter : ((p0, w0) :: tail).filter (fun hyp => ¬ (hyp.1 < pp)) = [] := by
        rw [List.filter_eq_nil_iff]
        intro a ha
        simpa using hlow a ha
      simp only [hfilter]
    · have hrest : UtteranceConfusionNetwork.pruneGo pp rest = none :=
        ih ⟨alts2, htail, p0, w0, tail, heq, hsil, hlow⟩
      match alts with
      | [] => rfl
      | (q0, v0) :: atail =>
        rw [UtteranceConfusionNetwork.pruneGo]
        by_cases hs : v0 = "" ∧ 1 - pp < q0
        · rw [if_pos hs]
          exact hrest
        · rw [if_neg hs]
          cases hf : ((q0, v0) :: atail).filter (fun hyp => ¬ (hyp.1 < pp)) with
          | nil => simp only [hf]
          | cons a as =>
            obtain ⟨a1, a2⟩ := a
            simp only [hf]
            by_cases hk : a2 = "" ∧ as = []
            · rw [if_pos hk]
              exact hrest
            · rw [if_neg hk, hrest]
              rfl

/-- C10: prune is not total.  Whenever some slot whose first alternative is
not high-probability silence has every alternative below prune_prob, the
per-slot filtered list is empty and the access pruned_alts[0]
(utterance.py line 1097) is out of bounds, so prune raises IndexError
instead of returning. -/
theorem prune_not_total (net : UCN) (pp : ℚ)
    (h : ∃ alts ∈ net.cn, ∃ p0 w0 tail, alts = (p0, w0) :: tail ∧
      ¬ (w0 = "" ∧ 1 - pp < p0) ∧ ∀ hyp ∈ alts, hyp.1 < pp) :
    UtteranceConfusionNetwork.prune pp net = none := by
  unfold UtteranceConfusionNetwork.prune
  rw [pruneGo_none_of_allLow pp net.cn h]
  rfl

/-- Witness for C10: a concrete one-slot network on which prune fails. -/
theorem prune_not_total_witness :
    UtteranceConfusionNetwork.prune (1/2) ⟨[[(1/10, "a")]], [[]], ["a"]⟩ = none := by
  apply prune_not_total
  refine ⟨[(1/10, "a")], by simp, 1/10, "a", [], rfl, ?_, ?_⟩
  · rintro ⟨h1, _⟩
    simp at h1
  · intro hyp hh
    simp at hh
    rw [hh]
    norm_num

namespace UtteranceConfusionNetwork

/-- UtteranceConfusionNetwork.get_prob (utterance.py lines 865-870): the
product of the chosen alternative probabilities, one per slot (long links
are not considered). -/
def getProb (net : UCN) (hyp : List Nat) : ℚ :=
  ((hyp.zip net.cn).map (fun pr => (pr.2.getD pr.1 (0, "")).1)).foldl (· * ·) 1

/-- UtteranceConfusionNetwork.get_next_worse_candidates (utterance.py lines
997-1011): increment one slot index at a time, dropping candidates that
overflow the slot's alternative count. -/
def getNextWorseCandidates (net : UCN) (hyp : List Nat) : List (List Nat) :=
  (List.range hyp.length).filterMap (fun i =>
    if (net.cn.getD i []).length ≤ hyp.getD i 0 + 1 then none
    else some (hyp.set i (hyp.getD i 0 + 1)))

/-- Python 2 descending comparison on (probability, hypothesis index)
pairs: tuples compare lexicographically, lists of naturals likewise. -/
def listGeNat : List Nat → List Nat → Bool
  | [], [] => true
  | [], _ :: _ => false
  | _ :: _, [] => true
  | x :: xs, y :: ys => if x = y then listGeNat xs ys else decide (y < x)

def pairGe (a b : ℚ × List Nat) : Bool :=
  if a.1 = b.1 then listGeNat a.2 b.2 else decide (b.1 < a.1)

/-- Python list.sort(reverse=True) on the open list, modelled by insertion
sort with the same descending order (duplicates in the open list are
identical pairs, so stability differences are unobservable). -/
def insertDesc (x : ℚ × List Nat) : List (ℚ × List Nat) → List (ℚ × List Nat)
  | [] => [x]
  | y :: ys => if pairGe x y then x :: y :: ys else y :: insertDesc x ys

def sortDesc : List (ℚ × List Nat) → List (ℚ × List Nat)
  | [] => []
  | x :: xs => insertDesc x (sortDesc xs)

/-- The open/closed best-first loop of get_utterance_nblist (utterance.py
lines 1031-1058).  The fuel is the counter i bounded by n; the returned
association list is closed_hyp together with its insertion (closure)
order.  Each iteration pops the front of the sorted open list, closes it
if new, pushes its next-worse candidates and re-sorts. -/
def nbLoop (net : UCN) : Nat → List (ℚ × List Nat) → List (List Nat × ℚ) →
    List (List Nat × ℚ)
  | 0, _, closed => closed
  | _ + 1, [], closed => closed
  | fuel + 1, (p, h) :: rest, closed =>
    if closed.any (fun c => decide (c.1 = h)) then nbLoop net fuel rest closed
    else
      let children := (getNextWorseCandidates net h).map
        (fun h2 => (getProb net h2, h2))
      nbLoop net fuel (sortDesc (rest ++ children)) (closed ++ [(h, p)])

/-- The closed set built by get_utterance_nblist(n), in closure order,
starting from the all-zero index vector. -/
def closedList (net : UCN) (n : Nat) : List (List Nat × ℚ) :=
  let best := List.replicate net.cn.length 0
  nbLoop net n [(getProb net best, best)] []

end UtteranceConfusionNetwork

namespace UtteranceConfusionNetwork

theorem pairGe_true_le {a b : ℚ × List Nat} (h : pairGe a b = true) : b.1 ≤ a.1 := by
  unfold pairGe at h
  by_cases he : a.1 = b.1
  · exact le_of_eq he.symm
  · rw [if_neg he, decide_eq_true_eq] at h
    exact le_of_lt h

theorem pairGe_false_le {a b : ℚ × List Nat} (h : pairGe a b = false) : a.1 ≤ b.1 := by
  unfold pairGe at h
  by_cases he : a.1 = b.1
  · exact le_of_eq he
  · rw [if_neg he, decide_eq_false_iff_not] at h
    exact le_of_not_lt h

theorem mem_insertDesc {x y : ℚ × List Nat} :
    ∀ (l : List (ℚ × List Nat)), y ∈ insertDesc x l → y = x ∨ y ∈ l := by
  intro l
  induction l with
  | nil =>
    intro h
    simp only [insertDesc, List.mem_singleton] at h
    exact Or.inl h
  | cons z zs ih =>
    intro h
    unfold insertDesc at h
    by_cases hc : pairGe x z = true
    · rw [if_pos hc] at h
      rcases List.mem_cons.mp h with h1 | h1
      · exact Or.inl h1
      · exact Or.inr h1
    · rw [if_neg hc] at h
      rcases List.mem_cons.mp h with h1 | h1
      · exact Or.inr (by simp [h1])
      · rcases ih h1 with h2 | h2
        · exact Or.inl h2
        · exact Or.inr (List.mem_cons_of_mem _ h2)

theorem mem_sortDesc {y : ℚ × List Nat} :
    ∀ (l : List (ℚ × List Nat)), y ∈ sortDesc l → y ∈ l := by
  intro l
  induction l with
  | nil => intro h; simp [sortDesc] at h
  | cons z zs ih =>
    intro h
    unfold sortDesc at h
    rcases mem_insertDesc (sortDesc zs) h with h1 | h1
    · simp [h1]
    · exact List.mem_cons_of_mem _ (ih h1)

theorem pairwise_insertDesc (x : ℚ × List Nat) :
    ∀ (l : List (ℚ × List Nat)), List.Pairwise (fun a b => b.1 ≤ a.1) l →
      List.Pairwise (fun a b => b.1 ≤ a.1) (insertDesc x l) := by
  intro l
  induction l with
  | nil => intro _; simp [insertDesc]
  | cons z zs ih =>
    intro hp
    rw [List.pairwise_cons] at hp
    obtain ⟨hz, hzs⟩ := hp
    unfold insertDesc
    by_cases hc : pairGe x z = true
    · rw [if_pos hc]
      rw [List.pairwise_cons]
      constructor
      · intro b hb
        rcases List.mem_cons.mp hb with h1 | h1
        · subst h1; exact pairGe_true_le hc
        · exact le_trans (hz b h1) (pairGe_true_le hc)
      · rw [List.pairwise_cons]
        exact ⟨hz, hzs⟩
    · rw [if_neg (by simpa using hc)]
      rw [List.pairwise_cons]
      constructor
      · intro b hb
        rcases mem_insertDesc zs hb with h1 | h1
        · subst h1
          exact pairGe_false_le (by simpa using hc)
        · exact hz b h1
      · exact ih hzs

theorem pairwise_sortDesc :
    ∀ (l : List (ℚ × List Nat)),
      List.Pairwise (fun a b => b.1 ≤ a.1) (sortDesc l) := by
  intro l
  induction l with
  | nil => simp [sortDesc]
  | cons z zs ih => exact pairwise_insertDesc z (sortDesc zs) ih

theorem foldl_mul_eq (x : ℚ) : ∀ (l : List ℚ), l.foldl (· * ·) x = x * l.foldl (· * ·) 1
  | [] => by simp
  | b :: l => by
    simp only [List.foldl_cons]
    rw [foldl_mul_eq (x * b) l, foldl_mul_eq (1 * b) l]
    ring

/-- The product getProb computes, written over an explicit slot list so
that it can be taken apart by induction; getProb net h = prodF h net.cn
definitionally. -/
def prodF (hyp : List Nat) (cns : List (List (ℚ × String))) : ℚ :=
  ((hyp.zip cns).map (fun pr => (pr.2.getD pr.1 (0, "")).1)).foldl (· * ·) 1

theorem getProb_eq_prodF (net : UCN) (hyp : List Nat) :
    getProb net hyp = prodF hyp net.cn := rfl

theorem prodF_nil_left (cns : List (List (ℚ × String))) : prodF [] cns = 1 := rfl

theorem prodF_cons (a : Nat) (h : List Nat) (c : List (ℚ × String))
    (cns : List (List (ℚ × String))) :
    prodF (a :: h) (c :: cns) = (c.getD a (0, "")).1 * prodF h cns := by
  unfold prodF
  simp only [List.zip_cons_cons, List.map_cons, List.foldl_cons]
  rw [foldl_mul_eq]
  ring

theorem getD_fst_nonneg (c : List (ℚ × String)) (a : Nat)
    (hc : ∀ x ∈ c, 0 ≤ x.1) : 0 ≤ (c.getD a (0, "")).1 := by
  by_cases ha : a < c.length
  · rw [List.getD_eq_getElem?_getD, List.getElem?_eq_getElem ha]
    exact hc _ (List.getElem_mem ha)
  · rw [List.getD_eq_getElem?_getD, List.getElem?_eq_none (by omega)]
    simp

theorem prodF_nonneg :
    ∀ (h : List Nat) (cns : List (List (ℚ × String))),
      (∀ alts ∈ cns, ∀ x ∈ alts, 0 ≤ x.1) → 0 ≤ prodF h cns := by
  intro h
  induction h with
  | nil => intro cns _; rw [prodF_nil_left]; norm_num
  | cons a h2 ih =>
    intro cns hnn
    match cns with
    | [] => unfold prodF; simp
    | c :: cns2 =>
      rw [prodF_cons]
      have h1 : 0 ≤ (c.getD a (0, "")).1 :=
        getD_fst_nonneg c a (hnn c (by simp))
      have h2n : 0 ≤ prodF h2 cns2 := ih cns2 (fun alts ha => hnn alts (by simp [ha]))
      exact mul_nonneg h1 h2n

theorem sorted_getD_succ_le (c : List (ℚ × String)) (a : Nat)
    (hs : List.Pairwise (fun x y => y.1 ≤ x.1) c) (hlt : a + 1 < c.length) :
    (c.getD (a + 1) (0, "")).1 ≤ (c.getD a (0, "")).1 := by
  rw [List.getD_eq_getElem?_getD, List.getElem?_eq_getElem hlt,
    List.getD_eq_getElem?_getD, List.getElem?_eq_getElem (by omega : a < c.length)]
  exact (List.pairwise_iff_getElem.mp hs) a (a + 1) (by omega) hlt (by omega)

theorem prodF_bump_le :
    ∀ (i : Nat) (h : List Nat) (cns : List (List (ℚ × String))),
      (∀ alts ∈ cns, ∀ x ∈ alts, 0 ≤ x.1) →
      (∀ alts ∈ cns, List.Pairwise (fun x y => y.1 ≤ x.1) alts) →
      i < h.length →
      h.getD i 0 + 1 < (cns.getD i []).length →
      prodF (h.set i (h.getD i 0 + 1)) cns ≤ prodF h cns := by
  intro i
  induction i with
  | zero =>
    intro h cns hnn hsort hi hlt
    match h, cns with
    | [], _ => simp at hi
    | a :: h2, [] => simp at hlt
    | a :: h2, c :: cns2 =>
      simp only [List.getD_cons_zero] at hlt
      simp only [List.set_cons_zero, List.getD_cons_zero]
      rw [prodF_cons, prodF_cons]
      apply mul_le_mul_of_nonneg_right
      · exact sorted_getD_succ_le c a (hsort c (by simp)) hlt
      · exact prodF_nonneg h2 cns2 (fun alts ha => hnn alts (by simp [ha]))
  | succ i ih =>
    intro h cns hnn hsort hi hlt
    match h, cns with
    | [], _ => simp at hi
    | a :: h2, [] => simp at hlt
    | a :: h2, c :: cns2 =>
      simp only [List.getD_cons_succ] at hlt
      simp only [List.set_cons_succ, List.getD_cons_succ]
      rw [prodF_cons, prodF_cons]
      apply mul_le_mul_of_nonneg_left
      · exact ih h2 cns2 (fun alts ha => hnn alts (by simp [ha]))
          (fun alts ha => hsort alts (by simp [ha])) (by simpa using hi) hlt
      · exact getD_fst_nonneg c a (hnn c (by simp))

/-- Characterisation of next-worse candidates: each arises by bumping one
in-range slot index. -/
theorem mem_getNextWorseCandidates (net : UCN) (h h2 : List Nat)
    (hm : h2 ∈ getNextWorseCandidates net h) :
    ∃ i, i < h.length ∧ h.getD i 0 + 1 < (net.cn.getD i []).length ∧
      h2 = h.set i (h.getD i 0 + 1) := by
  unfold getNextWorseCandidates at hm
  rw [List.mem_filterMap] at hm
  obtain ⟨i, hi, heq⟩ := hm
  rw [List.mem_range] at hi
  by_cases hc : (net.cn.getD i []).length ≤ h.getD i 0 + 1
  · rw [if_pos hc] at heq
    exact absurd heq (by simp)
  · rw [if_neg hc] at heq
    exact ⟨i, hi, by omega, (Option.some.inj heq).symm⟩

end UtteranceConfusionNetwork

namespace UtteranceConfusionNetwork

/-- Loop invariant of the best-first expansion: open entries carry their
get_prob value and in-range indices, the open list is sorted by
non-increasing probability, the closure order is non-increasing, every open
probability is bounded by every closed probability, and closed entries
carry their get_prob value. -/
def NbInvariant (net : UCN) (opens : List (ℚ × List Nat))
    (closed : List (List Nat × ℚ)) : Prop :=
  (∀ x ∈ opens, x.1 = getProb net x.2 ∧ x.2.length = net.cn.length ∧
    ∀ i, i < x.2.length → x.2.getD i 0 < (net.cn.getD i []).length) ∧
  List.Pairwise (fun a b => b.1 ≤ a.1) opens ∧
  List.Pairwise (fun (a b : List Nat × ℚ) => b.2 ≤ a.2) closed ∧
  (∀ x ∈ opens, ∀ c ∈ closed, x.1 ≤ c.2) ∧
  (∀ c ∈ closed, c.2 = getProb net c.1)

theorem nbLoop_invariant (net : UCN)
    (hnn : ∀ alts ∈ net.cn, ∀ x ∈ alts, 0 ≤ x.1)
    (hsort : ∀ alts ∈ net.cn, List.Pairwise (fun (x y : ℚ × String) => y.1 ≤ x.1) alts) :
    ∀ (fuel : Nat) (opens : List (ℚ × List Nat)) (closed : List (List Nat × ℚ)),
      NbInvariant net opens closed →
      List.Pairwise (fun (a b : List Nat × ℚ) => b.2 ≤ a.2)
          (nbLoop net fuel opens closed) ∧
        ∀ c ∈ nbLoop net fuel opens closed, c.2 = getProb net c.1 := by
  intro fuel
  induction fuel with
  | zero =>
    intro opens closed hinv
    exact ⟨hinv.2.2.1, hinv.2.2.2.2⟩
  | succ fuel ih =>
    intro opens closed hinv
    obtain ⟨hval, hopen, hclosed, hbound, hcp⟩ := hinv
    match opens with
    | [] => exact ⟨hclosed, hcp⟩
    | (p, h) :: rest =>
      rw [nbLoop]
      by_cases hmem : (closed.any (fun c => decide (c.1 = h))) = true
      · rw [if_pos hmem]
        apply ih
        refine ⟨fun x hx => hval x (by simp [hx]), ?_, hclosed, ?_, hcp⟩
        · exact (List.pairwise_cons.mp hopen).2
        · intro x hx c hc
          exact hbound x (by simp [hx]) c hc
      · rw [if_neg hmem]
        have hph : p = getProb net h := (hval (p, h) (by simp)).1
        have hhlen : h.length = net.cn.length := (hval (p, h) (by simp)).2.1
        have hhval : ∀ i, i < h.length → h.getD i 0 < (net.cn.getD i []).length :=
          (hval (p, h) (by simp)).2.2
        have hchild : ∀ x ∈ (getNextWorseCandidates net h).map
            (fun h2 => (getProb net h2, h2)),
            x.1 = getProb net x.2 ∧ x.2.length = net.cn.length ∧
              (∀ i, i < x.2.length → x.2.getD i 0 < (net.cn.getD i []).length) ∧
              x.1 ≤ p := by
          intro x hx
          rw [List.mem_map] at hx
          obtain ⟨h2, hh2, hxe⟩ := hx
          obtain ⟨i, hi, hlt, he⟩ := mem_getNextWorseCandidates net h h2 hh2
          subst hxe
          refine ⟨rfl, ?_, ?_, ?_⟩
          · simp only [he, List.length_set]
            exact hhlen
          · intro j hj
            simp only [he, List.length_set] at hj ⊢
            by_cases hij : j = i
            · subst hij
              rw [List.getD_eq_getElem?_getD, List.getElem?_set_self (by omega),
                Option.getD_some]
              · exact hlt
            · rw [List.getD_eq_getElem?_getD, List.getElem?_set_ne (by omega),
                ← List.getD_eq_getElem?_getD]
              exact hhval j hj
          · simp only [he, hph, getProb_eq_prodF]
            exact prodF_bump_le i h net.cn hnn hsort hi hlt
        have hrest_le : ∀ x ∈ rest, x.1 ≤ p := by
          intro x hx
          exact (List.pairwise_cons.mp hopen).1 x hx
        apply ih
        refine ⟨?_, ?_, ?_, ?_, ?_⟩
        · intro x hx
          have hx2 := mem_sortDesc _ hx
          rw [List.mem_append] at hx2
          rcases hx2 with hx2 | hx2
          · exact hval x (by simp [hx2])
          · obtain ⟨h1, h2, h3, _⟩ := hchild x hx2
            exact ⟨h1, h2, h3⟩
        · exact pairwise_sortDesc _
        · rw [List.pairwise_append]
          refine ⟨hclosed, by simp, ?_⟩
          intro a ha b hb
          rw [List.mem_singleton] at hb
          subst hb
          exact hbound (p, h) (by simp) a ha
        · intro x hx c hc
          have hx2 := mem_sortDesc _ hx
          rw [List.mem_append] at hx2
          rw [List.mem_append, List.mem_singleton] at hc
          have hxp : x.1 ≤ p := by
            rcases hx2 with hx2 | hx2
            · exact hrest_le x hx2
            · exact (hchild x hx2).2.2.2
          rcases hc with hc | hc
          · rcases hx2 with hx2 | hx2
            · exact hbound x (by simp [hx2]) c hc
            · exact le_trans hxp (hbound (p, h) (by simp) c hc)
          · subst hc
            exact hxp
        · intro c hc
          rw [List.mem_append, List.mem_singleton] at hc
          rcases hc with hc | hc
          · exact hcp c hc
          · subst hc
            exact hph

/-- C3 amended: given the sort() precondition (each slot's alternatives in
non-increasing probability order), non-negative probabilities and non-empty
slots, the closed set of the get_utterance_nblist loop is produced in
non-increasing probability order: a vector B is never closed before a
vector A whose probability (as computed by get_prob) is strictly greater.
Every closed entry carries its get_prob value. -/
theorem nblist_closure_order_monotone (net : UCN) (n : Nat)
    (hne : ∀ alts ∈ net.cn, alts ≠ [])
    (hnn : ∀ alts ∈ net.cn, ∀ x ∈ alts, 0 ≤ x.1)
    (hsort : ∀ alts ∈ net.cn, List.Pairwise (fun (x y : ℚ × String) => y.1 ≤ x.1) alts) :
    List.Pairwise (fun (a b : List Nat × ℚ) => b.2 ≤ a.2) (closedList net n) ∧
    ∀ c ∈ closedList net n, c.2 = getProb net c.1 := by
  unfold closedList
  apply nbLoop_invariant net hnn hsort
  refine ⟨?_, by simp, by simp, by simp, by simp⟩
  intro x hx
  rw [List.mem_singleton] at hx
  subst hx
  refine ⟨rfl, by simp, ?_⟩
  intro i hi
  rw [List.length_replicate] at hi
  rw [List.getD_eq_getElem?_getD, List.getElem?_replicate_of_lt hi]
  have hmem : net.cn.getD i [] ∈ net.cn := by
    rw [List.getD_eq_getElem?_getD, List.getElem?_eq_getElem hi]
    exact List.getElem_mem hi
  have := hne (net.cn.getD i []) hmem
  simp only [Option.getD_some]
  rcases Nat.eq_zero_or_pos (net.cn.getD i []).length with h0 | h0
  · exact absurd (List.length_eq_zero.mp h0) this
  · exact h0

end UtteranceConfusionNetwork

/-- Two equal-probability alternatives in one slot: the tie network. -/
def netTie : UCN := ⟨[[(1, "x"), (1, "y")]], [[]], ["x", "y"]⟩

/-- C3 counterexample: with the claim's non-strict comparison the property
fails on probability ties.  On the tie network (sorted, non-negative,
non-empty slots) the vector B = [0] is closed strictly before A = [1]
although get_prob(A) >= get_prob(B), since both probabilities equal 1. -/
theorem nblist_closure_order_fails_on_ties :
    (UtteranceConfusionNetwork.closedList netTie 10).map Prod.fst = [[0], [1]] ∧
    UtteranceConfusionNetwork.getProb netTie [0] ≤
      UtteranceConfusionNetwork.getProb netTie [1] ∧
    ([0] : List Nat) ≠ [1] ∧
    (∀ alts ∈ netTie.cn, alts ≠ []) ∧
    (∀ alts ∈ netTie.cn, ∀ x ∈ alts, 0 ≤ x.1) ∧
    (∀ alts ∈ netTie.cn, List.Pairwise (fun (x y : ℚ × String) => y.1 ≤ x.1) alts) := by
  refine ⟨?_, ?_, by decide, by decide, ?_, ?_⟩
  · simp [UtteranceConfusionNetwork.closedList, UtteranceConfusionNetwork.nbLoop,
      netTie, UtteranceConfusionNetwork.getProb,
      UtteranceConfusionNetwork.getNextWorseCandidates,
      UtteranceConfusionNetwork.sortDesc, UtteranceConfusionNetwork.insertDesc,
      List.filterMap, List.range_succ]
  · simp [UtteranceConfusionNetwork.getProb, netTie]
  · simp only [netTie, List.mem_singleton]
    rintro alts rfl x hx
    rcases List.mem_cons.mp hx with h | h
    · rw [h]; exact zero_le_one
    · rw [List.mem_singleton.mp h]; exact zero_le_one
  · simp [netTie]

/-- Witness for C3 at a concrete input. -/
theorem nblist_closure_order_monotone_witness :
    List.Pairwise (fun (a b : List Nat × ℚ) => b.2 ≤ a.2)
      (UtteranceConfusionNetwork.closedList netTie 10) := by
  refine (UtteranceConfusionNetwork.nblist_closure_order_monotone netTie 10
    (by decide) ?_ (by simp [netTie])).1
  simp only [netTie, List.mem_singleton]
  rintro alts rfl x hx
  rcases List.mem_cons.mp hx with h | h
  · rw [h]; exact zero_le_one
  · rw [List.mem_singleton.mp h]; exact zero_le_one

namespace UtteranceConfusionNetwork

def defaultLink : LongLink := ⟨0, [], (0, [])⟩

/-- Number of long links starting at slot w. -/
def numLinks (net : UCN) (w : Nat) : Nat := (net.long_links.getD w []).length

/-- Length of the orig_probs list of long link (w, a). -/
def origLen (net : UCN) (w a : Nat) : Nat :=
  ((net.long_links.getD w []).getD a defaultLink).orig_probs.length

/-- The per-hop probability orig_probs[l] of long link (w, a); 0 when out
of range. -/
def origProb (net : UCN) (w a l : Nat) : ℚ :=
  ((net.long_links.getD w []).getD a defaultLink).orig_probs.getD l 0

def slotAlts (net : UCN) (i : Nat) : List (ℚ × String) := net.cn.getD i []

/-- Sum of the alternative probabilities of slot i. -/
def altMass (net : UCN) (i : Nat) : ℚ := ((slotAlts net i).map Prod.fst).sum

/-- The hops of long links covering slot k: hop l of the link (w, a) lies
on slot w + l, so slot k is covered by the triples (w, a, k - w) with
w ≤ k and k - w < origLen.  This is the index set the normalise loop
maintains in link_idxs when it reaches slot k (utterance.py lines
1118-1129). -/
def coveringList (net : UCN) (k : Nat) : List (Nat × Nat × Nat) :=
  (List.range (k + 1)).flatMap (fun w =>
    (List.range (numLinks net w)).filterMap (fun a =>
      if k - w < origLen net w a then some (w, a, k - w) else none))

/-- The total probability mass at slot k: alternative probabilities plus
the per-hop probabilities of covering long links. -/
def slotMass (net : UCN) (k : Nat) : ℚ :=
  altMass net k + ((coveringList net k).map (fun t => origProb net t.1 t.2.1 t.2.2)).sum

/-- Advancing the link indices one slot forward (utterance.py lines
1121-1126). -/
def advanceIdxs (net : UCN) (idxs : List (Nat × Nat × Nat)) : List (Nat × Nat × Nat) :=
  idxs.filterMap (fun t =>
    if t.2.2 + 1 < origLen net t.1 t.2.1 then some (t.1, t.2.1, t.2.2 + 1) else none)

/-- In-place update long_links[w][a].orig_probs[l] *= c (utterance.py line
1137). -/
def scaleHop (c : ℚ) (t : Nat × Nat × Nat) (lls : List (List LongLink)) :
    List (List LongLink) :=
  listModify (fun links =>
    listModify (fun lk =>
      { lk with orig_probs := listModify (fun p => p * c) t.2.2 lk.orig_probs })
      t.2.1 links) t.1 lls

/-- One iteration of the normalise loop at slot k (utterance.py lines
1119-1137): advance the covering indices, add the links starting at k,
compute the total mass and rescale the slot's alternatives and the
covering hops. -/
def normaliseStep (st : List (Nat × Nat × Nat) × UCN) (k : Nat) :
    List (Nat × Nat × Nat) × UCN :=
  let net := st.2
  let idxs1 := advanceIdxs net st.1
  let idxs2 := idxs1 ++ (List.range (numLinks net k)).map (fun a => (k, a, 0))
  let tot := altMass net k + (idxs2.map (fun t => origProb net t.1 t.2.1 t.2.2)).sum
  let c := 1 / tot
  let net2 : UCN :=
    { net with
        cn := listModify (fun alts => alts.map (fun hyp => (hyp.1 * c, hyp.2))) k net.cn,
        long_links := idxs2.foldl (fun lls t => scaleHop c t lls) net.long_links }
  (idxs2, net2)

def normaliseLoop (st : List (Nat × Nat × Nat) × UCN) (k : Nat) : Nat → UCN
  | 0 => st.2
  | m + 1 => normaliseLoop (normaliseStep st k) (k + 1) m

/-- UtteranceConfusionNetwork.normalise (utterance.py lines 1107-1137);
end = None processes every slot, an explicit end processes min(end, total)
slots. -/
def normalise (net : UCN) (end? : Option Nat) : UCN :=
  let e := match end? with
    | none => net.cn.length
    | some e => if net.cn.length ≤ e then net.cn.length else e
  normaliseLoop ([], net) 0 e

end UtteranceConfusionNetwork

theorem listModify_ge (f : α → α) :
    ∀ (n : Nat) (l : List α), l.length ≤ n → listModify f n l = l
  | _, [], _ => by simp
  | 0, x :: xs, h => by simp at h
  | n + 1, x :: xs, h => by
    simp only [listModify_cons_succ, List.cons.injEq, true_and]
    exact listModify_ge f n xs (by simpa using h)

namespace UtteranceConfusionNetwork

/-- Raw accessors on a long-link table. -/
def llsNum (lls : List (List LongLink)) (w : Nat) : Nat := (lls.getD w []).length

def llsLen (lls : List (List LongLink)) (w a : Nat) : Nat :=
  ((lls.getD w []).getD a defaultLink).orig_probs.length

def llsProb (lls : List (List LongLink)) (w a l : Nat) : ℚ :=
  ((lls.getD w []).getD a defaultLink).orig_probs.getD l 0

theorem numLinks_eq_llsNum (net : UCN) (w : Nat) :
    numLinks net w = llsNum net.long_links w := rfl

theorem origLen_eq_llsLen (net : UCN) (w a : Nat) :
    origLen net w a = llsLen net.long_links w a := rfl

theorem origProb_eq_llsProb (net : UCN) (w a l : Nat) :
    origProb net w a l = llsProb net.long_links w a l := rfl

theorem getD_listModify (f : α → α) (d : α) (n i : Nat) (l : List α) :
    (listModify f n l).getD i d =
      if n = i ∧ i < l.length then f (l.getD i d) else l.getD i d := by
  by_cases h : n = i ∧ i < l.length
  · rw [if_pos h, h.1]
    exact getD_listModify_eq f d i l (h.1 ▸ h.2)
  · rw [if_neg h]
    by_cases hn : n = i
    · subst hn
      have hge : l.length ≤ n := by
        rcases Nat.lt_or_ge n l.length with h1 | h1
        · exact absurd ⟨rfl, h1⟩ h
        · exact h1
      rw [listModify_ge f n l hge]
    · exact getD_listModify_ne f d n i l hn

theorem llsNum_scaleHop (c : ℚ) (t : Nat × Nat × Nat) (lls : List (List LongLink))
    (w : Nat) : llsNum (scaleHop c t lls) w = llsNum lls w := by
  unfold llsNum scaleHop
  rw [getD_listModify]
  by_cases h : t.1 = w ∧ w < lls.length
  · rw [if_pos h]
    simp
  · rw [if_neg h]

theorem llsLen_scaleHop (c : ℚ) (t : Nat × Nat × Nat) (lls : List (List LongLink))
    (w a : Nat) : llsLen (scaleHop c t lls) w a = llsLen lls w a := by
  unfold llsLen scaleHop
  rw [getD_listModify]
  by_cases h : t.1 = w ∧ w < lls.length
  · rw [if_pos h]
    rw [getD_listModify]
    by_cases h2 : t.2.1 = a ∧ a < (lls.getD w []).length
    · rw [if_pos h2]
      simp
    · rw [if_neg h2]
  · rw [if_neg h]

theorem llsProb_scaleHop_self (c : ℚ) (t : Nat × Nat × Nat)
    (lls : List (List LongLink)) :
    llsProb (scaleHop c t lls) t.1 t.2.1 t.2.2 = llsProb lls t.1 t.2.1 t.2.2 * c := by
  obtain ⟨w, a, l⟩ := t
  unfold llsProb scaleHop
  simp only
  rw [getD_listModify]
  by_cases hw : w < lls.length
  · rw [if_pos ⟨rfl, hw⟩, getD_listModify]
    by_cases ha : a < (lls.getD w []).length
    · rw [if_pos ⟨rfl, ha⟩]
      simp only
      rw [getD_listModify]
      by_cases hl : l < ((lls.getD w []).getD a defaultLink).orig_probs.length
      · rw [if_pos ⟨rfl, hl⟩]
      · rw [if_neg (by intro hc; exact hl hc.2)]
        have hz : ((lls.getD w []).getD a defaultLink).orig_probs.getD l 0 = 0 := by
          rw [List.getD_eq_getElem?_getD, List.getElem?_eq_none (by omega)]
          rfl
        rw [hz, zero_mul]
    · rw [if_neg (by intro hc; exact ha hc.2)]
      have hd : (lls.getD w []).getD a defaultLink = defaultLink := by
        rw [List.getD_eq_getElem?_getD, List.getElem?_eq_none (by omega)]
        rfl
      rw [hd]
      simp [defaultLink]
  · rw [if_neg (by intro hc; exact hw hc.2)]
    have hd : lls.getD w [] = [] := by
      rw [List.getD_eq_getElem?_getD, List.getElem?_eq_none (by omega)]
      rfl
    rw [hd]
    simp [defaultLink]

theorem llsProb_scaleHop_ne (c : ℚ) (t t2 : Nat × Nat × Nat)
    (lls : List (List LongLink)) (hne : t2 ≠ t) :
    llsProb (scaleHop c t lls) t2.1 t2.2.1 t2.2.2 = llsProb lls t2.1 t2.2.1 t2.2.2 := by
  obtain ⟨w, a, l⟩ := t
  obtain ⟨w2, a2, l2⟩ := t2
  unfold llsProb scaleHop
  simp only
  rw [getD_listModify]
  by_cases h : w = w2 ∧ w2 < lls.length
  · rw [if_pos h]
    rw [getD_listModify]
    by_cases h2 : a = a2 ∧ a2 < (lls.getD w2 []).length
    · rw [if_pos h2]
      simp only
      have hl : l ≠ l2 := by
        intro he
        exact hne (by simp [h.1, h2.1, he])
      rw [getD_listModify_ne _ _ _ _ _ hl]
    · rw [if_neg h2]
  · rw [if_neg h]

theorem llsNum_scaleFold (c : ℚ) :
    ∀ (L : List (Nat × Nat × Nat)) (lls : List (List LongLink)) (w : Nat),
      llsNum (L.foldl (fun ls t => scaleHop c t ls) lls) w = llsNum lls w := by
  intro L
  induction L with
  | nil => intro lls w; rfl
  | cons t L ih =>
    intro lls w
    simp only [List.foldl_cons]
    rw [ih, llsNum_scaleHop]

theorem llsLen_scaleFold (c : ℚ) :
    ∀ (L : List (Nat × Nat × Nat)) (lls : List (List LongLink)) (w a : Nat),
      llsLen (L.foldl (fun ls t => scaleHop c t ls) lls) w a = llsLen lls w a := by
  intro L
  induction L with
  | nil => intro lls w a; rfl
  | cons t L ih =>
    intro lls w a
    simp only [List.foldl_cons]
    rw [ih, llsLen_scaleHop]

theorem llsProb_scaleFold_notMem (c : ℚ) :
    ∀ (L : List (Nat × Nat × Nat)) (lls : List (List LongLink)) (w a l : Nat),
      (∀ t ∈ L, (w, a, l) ≠ t) →
      llsProb (L.foldl (fun ls t => scaleHop c t ls) lls) w a l =
        llsProb lls w a l := by
  intro L
  induction L with
  | nil => intro lls w a l _; rfl
  | cons t L ih =>
    intro lls w a l hne
    simp only [List.foldl_cons]
    rw [ih _ w a l (fun s hs => hne s (by simp [hs]))]
    exact llsProb_scaleHop_ne c t (w, a, l) lls (hne t (by simp))

theorem llsProb_scaleFold_mem (c : ℚ) :
    ∀ (L : List (Nat × Nat × Nat)) (lls : List (List LongLink)) (w a l : Nat),
      L.Nodup → (w, a, l) ∈ L →
      llsProb (L.foldl (fun ls t => scaleHop c t ls) lls) w a l =
        llsProb lls w a l * c := by
  intro L
  induction L with
  | nil => intro lls w a l _ h; simp at h
  | cons t L ih =>
    intro lls w a l hnd hmem
    simp only [List.foldl_cons]
    rw [List.nodup_cons] at hnd
    rcases List.mem_cons.mp hmem with heq | hmem2
    · subst heq
      rw [llsProb_scaleFold_notMem c L _ w a l
        (fun s hs he => hnd.1 (he ▸ hs))]
      exact llsProb_scaleHop_self c (w, a, l) lls
    · rw [ih _ w a l hnd.2 hmem2]
      have hch := llsProb_scaleHop_ne c t (w, a, l) lls
        (by intro he; exact hnd.1 (he ▸ hmem2))
      rw [hch]

theorem getD_mem_of_lt (l : List α) (i : Nat) (d : α) (h : i < l.length) :
    l.getD i d ∈ l := by
  rw [List.getD_eq_getElem?_getD, List.getElem?_eq_getElem h]
  exact List.getElem_mem h

/-- Well-formedness of a confusion network for normalise: the long-link
table is parallel to the slot list and every long link carries at least
one per-hop probability (both invariants hold for every network the class
builds: add appends to both lists and _replace creates links whose
orig_probs collect at least one matched probability). -/
def WFlinks (net : UCN) : Prop :=
  net.long_links.length = net.cn.length ∧
  ∀ links ∈ net.long_links, ∀ lk ∈ links, lk.orig_probs ≠ []

theorem wf_origLen_pos (net : UCN) (hwf : WFlinks net) (w a : Nat)
    (ha : a < numLinks net w) : 0 < origLen net w a := by
  unfold numLinks at ha
  unfold origLen
  by_cases hw : w < net.long_links.length
  · have hlinks : net.long_links.getD w [] ∈ net.long_links :=
      getD_mem_of_lt _ _ _ hw
    have hlk : (net.long_links.getD w []).getD a defaultLink ∈ net.long_links.getD w [] :=
      getD_mem_of_lt _ _ _ ha
    have := hwf.2 _ hlinks _ hlk
    rcases Nat.eq_zero_or_pos ((net.long_links.getD w []).getD a defaultLink).orig_probs.length
      with h0 | h0
    · exact absurd (List.length_eq_zero.mp h0) this
    · exact h0
  · have : net.long_links.getD w [] = [] := by
      rw [List.getD_eq_getElem?_getD, List.getElem?_eq_none (by omega)]
      rfl
    rw [this] at ha
    simp at ha

/-- Members of coveringList net k are exactly the in-range hops landing on
slot k. -/
theorem mem_coveringList (net : UCN) (k : Nat) (t : Nat × Nat × Nat) :
    t ∈ coveringList net k ↔
      t.1 + t.2.2 = k ∧ t.1 ≤ k ∧ t.2.1 < numLinks net t.1 ∧
        t.2.2 < origLen net t.1 t.2.1 ∧ t.2.2 = k - t.1 := by
  obtain ⟨w, a, l⟩ := t
  unfold coveringList
  rw [List.mem_flatMap]
  constructor
  · rintro ⟨w2, hw2, hmem⟩
    rw [List.mem_range] at hw2
    rw [List.mem_filterMap] at hmem
    obtain ⟨a2, ha2, heq⟩ := hmem
    rw [List.mem_range] at ha2
    by_cases hc : k - w2 < origLen net w2 a2
    · rw [if_pos hc] at heq
      simp only [Option.some.injEq, Prod.mk.injEq] at heq
      obtain ⟨e1, e2, e3⟩ := heq
      subst e1; subst e2; subst e3
      dsimp only
      exact ⟨by omega, by omega, ha2, hc, rfl⟩
    · rw [if_neg hc] at heq
      exact absurd heq (by simp)
  · rintro ⟨h1, h2, h3, h4, h5⟩
    refine ⟨w, by rw [List.mem_range]; omega, ?_⟩
    rw [List.mem_filterMap]
    refine ⟨a, by rw [List.mem_range]; exact h3, ?_⟩
    rw [if_pos (h5 ▸ h4)]
    rw [← h5]

theorem filterMap_flatMap_comm (l : List α) (f : α → List β) (g : β → Option γ) :
    (l.flatMap f).filterMap g = l.flatMap (fun x => (f x).filterMap g) := by
  induction l with
  | nil => rfl
  | cons x xs ih =>
    simp only [List.flatMap_cons, List.filterMap_append, ih]

theorem flatMap_congr_mem (l : List α) (f g : α → List β)
    (h : ∀ a ∈ l, f a = g a) : l.flatMap f = l.flatMap g := by
  induction l with
  | nil => rfl
  | cons x xs ih =>
    simp only [List.flatMap_cons]
    rw [h x (by simp), ih (fun a ha => h a (by simp [ha]))]

theorem filterMap_eq_map_of_forall (l : List α) (f : α → Option β) (g : α → β)
    (h : ∀ a ∈ l, f a = some (g a)) : l.filterMap f = l.map g := by
  induction l with
  | nil => rfl
  | cons x xs ih =>
    rw [List.filterMap_cons, h x (by simp), List.map_cons,
      ih (fun a ha => h a (by simp [ha]))]

theorem coveringList_zero (net0 : UCN) (hwf : WFlinks net0) :
    coveringList net0 0 = (List.range (numLinks net0 0)).map (fun a => (0, a, 0)) := by
  unfold coveringList
  rw [show List.range (0 + 1) = [0] from rfl]
  simp only [List.flatMap_cons, List.flatMap_nil, List.append_nil]
  apply filterMap_eq_map_of_forall
  intro a ha
  rw [List.mem_range] at ha
  rw [if_pos]
  exact wf_origLen_pos net0 hwf 0 a ha

theorem coveringList_succ (net net0 : UCN) (hwf : WFlinks net0)
    (hlen : ∀ w a, origLen net w a = origLen net0 w a) (k : Nat) :
    coveringList net0 (k + 1) =
      advanceIdxs net (coveringList net0 k) ++
        (List.range (numLinks net0 (k + 1))).map (fun a => (k + 1, a, 0)) := by
  unfold coveringList advanceIdxs
  rw [filterMap_flatMap_comm]
  rw [List.range_succ (n := k + 1), List.flatMap_append]
  congr 1
  · apply flatMap_congr_mem
    intro w hw
    rw [List.mem_range] at hw
    rw [List.filterMap_filterMap]
    apply congrArg (fun f => List.filterMap f (List.range (numLinks net0 w)))
    funext a
    by_cases hc : k - w < origLen net0 w a
    · rw [if_pos hc]
      show _ = if (k - w) + 1 < origLen net w a then some (w, a, (k - w) + 1) else none
      rw [hlen]
      by_cases hc2 : k - w + 1 < origLen net0 w a
      · rw [if_pos hc2, if_pos (by omega)]
        have he : k + 1 - w = k - w + 1 := by omega
        rw [he]
      · rw [if_neg hc2, if_neg (by omega)]
    · rw [if_neg hc]
      show _ = (none : Option (Nat × Nat × Nat))
      rw [if_neg (by omega)]
  · simp only [List.flatMap_cons, List.flatMap_nil, List.append_nil]
    apply filterMap_eq_map_of_forall
    intro a ha
    rw [List.mem_range] at ha
    rw [if_pos]
    · rw [Nat.sub_self]
    · rw [Nat.sub_self]
      exact wf_origLen_pos net0 hwf (k + 1) a ha

theorem nodup_filterMap_of_injOn (l : List α) (f : α → Option β)
    (hl : l.Nodup)
    (hinj : ∀ a ∈ l, ∀ b ∈ l, ∀ x, f a = some x → f b = some x → a = b) :
    (l.filterMap f).Nodup := by
  induction l with
  | nil => simp
  | cons x xs ih =>
    rw [List.nodup_cons] at hl
    rw [List.filterMap_cons]
    cases hfx : f x with
    | none => exact ih hl.2 (fun a ha b hb y h1 h2 => hinj a (by simp [ha]) b (by simp [hb]) y h1 h2)
    | some y =>
      rw [List.nodup_cons]
      constructor
      · intro hy
        rw [List.mem_filterMap] at hy
        obtain ⟨a, ha, hfa⟩ := hy
        have : a = x := hinj a (by simp [ha]) x (by simp) y hfa hfx
        exact hl.1 (this ▸ ha)
      · exact ih hl.2 (fun a ha b hb z h1 h2 => hinj a (by simp [ha]) b (by simp [hb]) z h1 h2)

theorem nodup_flatMap_of (l : List α) (f : α → List β)
    (hl : l.Nodup)
    (hn : ∀ a ∈ l, (f a).Nodup)
    (hdisj : ∀ a ∈ l, ∀ b ∈ l, a ≠ b → ∀ x ∈ f a, x ∉ f b) :
    (l.flatMap f).Nodup := by
  induction l with
  | nil => simp
  | cons x xs ih =>
    rw [List.nodup_cons] at hl
    rw [List.flatMap_cons]
    apply List.Nodup.append
    · exact hn x (by simp)
    · exact ih hl.2 (fun a ha => hn a (by simp [ha]))
        (fun a ha b hb hne y hy => hdisj a (by simp [ha]) b (by simp [hb]) hne y hy)
    · intro y hy hy2
      rw [List.mem_flatMap] at hy2
      obtain ⟨b, hb, hyb⟩ := hy2
      have hbx : x ≠ b := by
        intro he
        exact hl.1 (he ▸ hb)
      exact hdisj x (by simp) b (by simp [hb]) hbx y hy hyb

theorem coveringList_nodup (net : UCN) (k : Nat) : (coveringList net k).Nodup := by
  unfold coveringList
  apply nodup_flatMap_of
  · exact List.nodup_range _
  · intro w _
    apply nodup_filterMap_of_injOn
    · exact List.nodup_range _
    · intro a _ b _ x ha hb
      by_cases hca : k - w < origLen net w a
      · by_cases hcb : k - w < origLen net w b
        · rw [if_pos hca, Option.some.injEq] at ha
          rw [if_pos hcb, Option.some.injEq] at hb
          rw [← hb] at ha
          simp only [Prod.mk.injEq] at ha
          exact ha.2.1
        · rw [if_neg hcb] at hb
          exact absurd hb (by simp)
      · rw [if_neg hca] at ha
        exact absurd ha (by simp)
  · intro w1 _ w2 _ hne x hx1 hx2
    have h1 : x.1 = w1 := by
      rw [List.mem_filterMap] at hx1
      obtain ⟨a, _, ha⟩ := hx1
      by_cases hc : k - w1 < origLen net w1 a
      · rw [if_pos hc, Option.some.injEq] at ha
        rw [← ha]
      · rw [if_neg hc] at ha
        exact absurd ha (by simp)
    have h2 : x.1 = w2 := by
      rw [List.mem_filterMap] at hx2
      obtain ⟨a, _, ha⟩ := hx2
      by_cases hc : k - w2 < origLen net w2 a
      · rw [if_pos hc, Option.some.injEq] at ha
        rw [← ha]
      · rw [if_neg hc] at ha
        exact absurd ha (by simp)
    exact hne (h1 ▸ h2)

theorem coveringList_congr (net net0 : UCN)
    (hnum : ∀ w, numLinks net w = numLinks net0 w)
    (holen : ∀ w a, origLen net w a = origLen net0 w a) (k : Nat) :
    coveringList net k = coveringList net0 k := by
  unfold coveringList
  simp only [hnum, holen]

theorem sum_map_mul_const (l : List α) (f : α → ℚ) (c : ℚ) :
    (l.map (fun t => f t * c)).sum = (l.map f).sum * c := by
  induction l with
  | nil => simp
  | cons x xs ih =>
    simp only [List.map_cons, List.sum_cons, ih]
    ring

/-- The link_idxs list held at loop entry for slot k: empty for the first
slot, the covering list of the previous slot afterwards. -/
def coveringBelow (net0 : UCN) : Nat → List (Nat × Nat × Nat)
  | 0 => []
  | k + 1 => coveringList net0 k

/-- Invariant of the normalise loop before processing slot k, relative to
the original network net0: shapes are preserved, slots at and after k and
hops landing at or after k are untouched, slots before k already have unit
mass, and link_idxs is the covering list of the previous slot. -/
structure NormInv (net0 net : UCN) (k : Nat) (idxs : List (Nat × Nat × Nat)) : Prop where
  cnlen : net.cn.length = net0.cn.length
  num : ∀ w, numLinks net w = numLinks net0 w
  olen : ∀ w a, origLen net w a = origLen net0 w a
  alts : ∀ i, k ≤ i → slotAlts net i = slotAlts net0 i
  oprob : ∀ w a l, k ≤ w + l → origProb net w a l = origProb net0 w a l
  done : ∀ i, i < k → slotMass net i = 1
  idxs_eq : idxs = coveringBelow net0 k

theorem origProb_lls (net : UCN) (w a l : Nat) :
    origProb net w a l = llsProb net.long_links w a l := rfl

theorem normaliseStep_inv (net0 : UCN) (hwf : WFlinks net0) (k : Nat)
    (hk : k < net0.cn.length) (hpos : 0 < slotMass net0 k)
    (net : UCN) (idxs : List (Nat × Nat × Nat)) (hinv : NormInv net0 net k idxs) :
    NormInv net0 (normaliseStep (idxs, net) k).2 (k + 1) (normaliseStep (idxs, net) k).1 := by
  obtain ⟨hcnlen, hnum, holen, halts, hoprob, hdone, hidxs⟩ := hinv
  have hidxs2 : (normaliseStep (idxs, net) k).1 = coveringList net0 k := by
    show advanceIdxs net idxs ++ (List.range (numLinks net k)).map (fun a => (k, a, 0)) =
      coveringList net0 k
    rw [hnum k]
    cases k with
    | zero =>
      rw [hidxs]
      show [] ++ _ = _
      rw [List.nil_append, coveringList_zero net0 hwf]
    | succ k2 =>
      rw [hidxs]
      show advanceIdxs net (coveringList net0 k2) ++ _ = _
      rw [← coveringList_succ net net0 hwf holen k2]
  have htot : altMass net k +
      (((normaliseStep (idxs, net) k).1).map (fun t => origProb net t.1 t.2.1 t.2.2)).sum =
      slotMass net0 k := by
    rw [hidxs2]
    unfold slotMass
    congr 1
    · unfold altMass
      rw [halts k (le_refl k)]
    · apply congrArg
      apply List.map_congr_left
      intro t ht
      have hmem := (mem_coveringList net0 k t).mp ht
      exact hoprob t.1 t.2.1 t.2.2 (le_of_eq hmem.1.symm)
  -- the normaliser
  have hcn2 : (normaliseStep (idxs, net) k).2.cn =
      listModify (fun alts => alts.map (fun hyp =>
        (hyp.1 * (1 / (altMass net k +
          (((normaliseStep (idxs, net) k).1).map
            (fun t => origProb net t.1 t.2.1 t.2.2)).sum)), hyp.2))) k net.cn := rfl
  have hlls2 : (normaliseStep (idxs, net) k).2.long_links =
      ((normaliseStep (idxs, net) k).1).foldl
        (fun lls t => scaleHop (1 / (altMass net k +
          (((normaliseStep (idxs, net) k).1).map
            (fun t => origProb net t.1 t.2.1 t.2.2)).sum)) t lls) net.long_links := rfl
  generalize hc : (1 : ℚ) / (altMass net k +
      (((normaliseStep (idxs, net) k).1).map
        (fun t => origProb net t.1 t.2.1 t.2.2)).sum) = c at hcn2 hlls2
  have hcval : c = 1 / slotMass net0 k := by rw [← hc, htot]
  have hnum2 : ∀ w, numLinks (normaliseStep (idxs, net) k).2 w = numLinks net0 w := by
    intro w
    rw [numLinks_eq_llsNum, hlls2, llsNum_scaleFold, ← numLinks_eq_llsNum, hnum w]
  have holen2 : ∀ w a, origLen (normaliseStep (idxs, net) k).2 w a = origLen net0 w a := by
    intro w a
    rw [origLen_eq_llsLen, hlls2, llsLen_scaleFold, ← origLen_eq_llsLen, holen w a]
  have halts2 : ∀ i, k ≠ i → slotAlts (normaliseStep (idxs, net) k).2 i = slotAlts net i := by
    intro i hi
    show ((normaliseStep (idxs, net) k).2.cn).getD i [] = slotAlts net i
    rw [hcn2]
    rw [getD_listModify_ne _ _ _ _ _ hi]
    rfl
  have hoprob2ne : ∀ w a l, w + l ≠ k →
      origProb (normaliseStep (idxs, net) k).2 w a l = origProb net w a l := by
    intro w a l hne
    rw [origProb_lls, hlls2]
    have hn2 : ∀ t ∈ (normaliseStep (idxs, net) k).1, (w, a, l) ≠ t := by
      intro t ht he
      rw [hidxs2] at ht
      have hmem := (mem_coveringList net0 k t).mp ht
      rw [← he] at hmem
      exact hne (by simpa using hmem.1)
    rw [llsProb_scaleFold_notMem c _ _ w a l hn2]
    rfl
  have hoprob2mem : ∀ t ∈ coveringList net0 k,
      origProb (normaliseStep (idxs, net) k).2 t.1 t.2.1 t.2.2 =
        origProb net t.1 t.2.1 t.2.2 * c := by
    intro t ht
    rw [origProb_lls, hlls2]
    have hnd : ((normaliseStep (idxs, net) k).1).Nodup := by
      rw [hidxs2]; exact coveringList_nodup net0 k
    have hmem : (t.1, t.2.1, t.2.2) ∈ (normaliseStep (idxs, net) k).1 := by
      rw [hidxs2]; exact ht
    rw [llsProb_scaleFold_mem c _ _ t.1 t.2.1 t.2.2 hnd hmem]
    rfl
  constructor
  · show ((normaliseStep (idxs, net) k).2.cn).length = net0.cn.length
    rw [hcn2, length_listModify, hcnlen]
  · exact hnum2
  · exact holen2
  · intro i hi
    rw [halts2 i (by omega)]
    exact halts i (by omega)
  · intro w a l hle
    rw [hoprob2ne w a l (by omega)]
    exact hoprob w a l (by omega)
  · intro i hi
    have hcov2 : coveringList (normaliseStep (idxs, net) k).2 i = coveringList net0 i :=
      coveringList_congr _ net0 hnum2 holen2 i
    rcases Nat.lt_or_ge i k with hik | hik
    · -- slots before k keep their unit mass
      have hcov : coveringList net i = coveringList net0 i :=
        coveringList_congr net net0 hnum holen i
      have hprev := hdone i hik
      unfold slotMass at hprev ⊢
      rw [hcov2]
      rw [hcov] at hprev
      rw [← hprev]
      congr 1
      · unfold altMass
        rw [halts2 i (by omega)]
      · apply congrArg
        apply List.map_congr_left
        intro t ht
        have hmem := (mem_coveringList net0 i t).mp ht
        exact hoprob2ne t.1 t.2.1 t.2.2 (by omega)
    · -- i = k: the freshly normalised slot
      have hik2 : i = k := by omega
      subst hik2
      unfold slotMass
      rw [hcov2]
      have hslot : slotAlts (normaliseStep (idxs, net) i).2 i =
          (slotAlts net i).map (fun hyp => (hyp.1 * c, hyp.2)) := by
        show ((normaliseStep (idxs, net) i).2.cn).getD i [] = _
        rw [hcn2, getD_listModify_eq]
        · rfl
        · rw [hcnlen]; exact hk
      have hA : altMass (normaliseStep (idxs, net) i).2 i =
          ((slotAlts net i).map Prod.fst).sum * c := by
        unfold altMass
        rw [hslot, List.map_map]
        exact sum_map_mul_const (slotAlts net i) Prod.fst c
      have hB : ((coveringList net0 i).map
          (fun t => origProb (normaliseStep (idxs, net) i).2 t.1 t.2.1 t.2.2)).sum =
          ((coveringList net0 i).map (fun t => origProb net t.1 t.2.1 t.2.2)).sum * c := by
        rw [List.map_congr_left hoprob2mem]
        exact sum_map_mul_const _ _ c
      rw [hA, hB]
      have htot2 : ((slotAlts net i).map Prod.fst).sum +
          ((coveringList net0 i).map (fun t => origProb net t.1 t.2.1 t.2.2)).sum =
          slotMass net0 i := by
        unfold slotMass altMass
        congr 1
        · rw [halts i (le_refl i)]
        · apply congrArg
          apply List.map_congr_left
          intro t ht
          exact hoprob t.1 t.2.1 t.2.2
            (le_of_eq ((mem_coveringList net0 i t).mp ht).1.symm)
      have hfinal : ((slotAlts net i).map Prod.fst).sum * c +
          ((coveringList net0 i).map (fun t => origProb net t.1 t.2.1 t.2.2)).sum * c =
          (((slotAlts net i).map Prod.fst).sum +
            ((coveringList net0 i).map (fun t => origProb net t.1 t.2.1 t.2.2)).sum) * c := by
        ring
      rw [hfinal, htot2, hcval]
      exact mul_one_div_cancel (ne_of_gt hpos)
  · show (normaliseStep (idxs, net) k).1 = coveringBelow net0 (k + 1)
    rw [hidxs2]
    rfl

theorem normaliseLoop_inv (net0 : UCN) (hwf : WFlinks net0)
    (hpos : ∀ k, k < net0.cn.length → 0 < slotMass net0 k) :
    ∀ (m k : Nat) (net : UCN) (idxs : List (Nat × Nat × Nat)),
      k + m = net0.cn.length → NormInv net0 net k idxs →
      ∀ i, i < net0.cn.length → slotMass (normaliseLoop (idxs, net) k m) i = 1 := by
  intro m
  induction m with
  | zero =>
    intro k net idxs hkm hinv i hi
    show slotMass net i = 1
    exact hinv.done i (by omega)
  | succ m ih =>
    intro k net idxs hkm hinv i hi
    show slotMass (normaliseLoop (normaliseStep (idxs, net) k) (k + 1) m) i = 1
    have hstep := normaliseStep_inv net0 hwf k (by omega) (hpos k (by omega)) net idxs hinv
    exact ih (k + 1) (normaliseStep (idxs, net) k).2 (normaliseStep (idxs, net) k).1
      (by omega) hstep i hi

/-- C1: on any well-formed confusion network in which every slot's total
mass (alternative probabilities plus the per-hop orig_probs of covering
long links) is positive, normalise() makes the total mass of every slot
exactly 1. -/
theorem normalise_slot_mass_one (net : UCN) (hwf : WFlinks net)
    (hpos : ∀ k, k < net.cn.length → 0 < slotMass net k) :
    ∀ k, k < net.cn.length → slotMass (normalise net none) k = 1 := by
  intro k hk
  show slotMass (normaliseLoop ([], net) 0 net.cn.length) k = 1
  apply normaliseLoop_inv net hwf hpos net.cn.length 0 net [] (by omega) ?_ k hk
  exact ⟨rfl, fun _ => rfl, fun _ _ => rfl, fun _ _ => rfl, fun _ _ _ _ => rfl,
    fun i hi => absurd hi (by omega), rfl⟩

/-- Witness for C1 at a concrete one-slot network. -/
theorem normalise_slot_mass_one_witness :
    slotMass (normalise ⟨[[(1, "a")]], [[]], ["a"]⟩ none) 0 = 1 := by
  apply normalise_slot_mass_one ⟨[[(1, "a")]], [[]], ["a"]⟩ ?_ ?_ 0 (by decide)
  · exact ⟨rfl, by decide⟩
  · intro k hk
    have hk0 : k = 0 := by simp at hk; omega
    subst hk0
    simp [slotMass, altMass, slotAlts, coveringList, numLinks]
    rw [show ((List.range 1).flatMap fun _ => ([] : List (Nat × Nat × Nat))) = []
      from rfl]
    simp

end UtteranceConfusionNetwork

/-- Checked list access modelling Python l[i] (IndexError when out of
range; only non-negative indices occur in the modelled code paths). -/
def pyGet (l : List α) (i : Nat) : Except PyErr α :=
  if h : i < l.length then Except.ok l[i] else Except.error PyErr.indexError

/-- Checked deletion modelling Python del l[i]. -/
def pyDel (l : List α) (i : Nat) : Except PyErr (List α) :=
  if i < l.length then Except.ok (l.eraseIdx i) else Except.error PyErr.indexError

instance [DecidableEq ε] [DecidableEq α] : DecidableEq (Except ε α) := fun a b =>
  match a, b with
  | Except.ok x, Except.ok y => decidable_of_iff (x = y) (by simp)
  | Except.error x, Except.error y => decidable_of_iff (x = y) (by simp)
  | Except.ok _, Except.error _ => isFalse (by simp)
  | Except.error _, Except.ok _ => isFalse (by simp)

namespace UtteranceConfusionNetwork

/-- Wordset recomputation of _replace (utterance.py lines 820-824): words
of all alternatives plus words of all long-link phrases. -/
def wordsOf (r : UCN) : List String :=
  r.cn.flatMap (fun alts => alts.map Prod.snd) ++
  r.long_links.flatMap (fun links => links.flatMap (fun lk => lk.hyp.2))

/-- Deletion of all matched segments (utterance.py lines 763-769 and
806-810).  delSlice is true for the first loop, where a step inside a long
link executes del on a namedtuple slice, a TypeError; the second loop
deletes the whole link instead. -/
def deleteMatched (delSlice : Bool) (idxs : List (Int × Nat × Nat)) (r : UCN) :
    Except PyErr UCN :=
  idxs.foldlM (fun acc t => do
    let widx := t.1
    let aidx := t.2.1
    let lsidx := t.2.2
    if 0 ≤ widx then do
      let slot ← pyGet acc.cn widx.toNat
      let slot2 ← pyDel slot aidx
      pure { acc with cn := acc.cn.set widx.toNat slot2 }
    else if delSlice ∧ lsidx ≠ 0 then
      throw PyErr.typeError
    else do
      let links ← pyGet acc.long_links (-widx).toNat
      let links2 ← pyDel links aidx
      pure { acc with long_links := acc.long_links.set (-widx).toNat links2 }) r

/-- One per-occurrence edit of _replace (utterance.py lines 755-814),
returning the edited copy and the do_normalise / update_wordset flags. -/
def replaceOnce (_phrase repl : List String) (keep : Bool)
    (idxs : List (Int × Nat × Nat)) (t0 : Int × Nat × Nat) (r : UCN)
    (dn uw : Bool) : Except PyErr (UCN × Bool × Bool) := do
  let startWidx := t0.1.natAbs
  let tend := idxs.getLastD t0
  let endWidx := tend.1
  let endAidx := tend.2.1
  let endLsidx := tend.2.2
  if repl.length = 0 then
    if keep = false then do
      let r2 ← deleteMatched true idxs r
      pure (r2, true, true)
    else
      pure (r, dn, uw)
  else if idxs.length = 1 ∧ repl.length = 1 ∧ 0 ≤ t0.1 then do
    let slot ← pyGet r.cn t0.1.toNat
    let hyp ← pyGet slot t0.2.1
    let replHyp := (hyp.1, repl.headD "")
    let slot2 := if keep then slot ++ [replHyp] else slot.set t0.2.1 replHyp
    pure ({ r with cn := r.cn.set t0.1.toNat slot2 }, dn, true)
  else if endLsidx ≠ 0 then
    if idxs.length = 1 then throw PyErr.typeError else throw PyErr.assertionError
  else do
    let origProbs ← idxs.mapM (fun t => do
      if 0 ≤ t.1 then do
        let slot ← pyGet r.cn t.1.toNat
        let hyp ← pyGet slot t.2.1
        pure hyp.1
      else do
        let links ← pyGet r.long_links (-t.1).toNat
        let lk ← pyGet links t.2.1
        pure lk.hyp.1)
    let prob := origProbs.foldl (· * ·) 1
    let newHyp := (prob, repl)
    let end_ ← do
      if 0 ≤ endWidx then
        pure (endWidx.toNat + 1)
      else do
        let links ← pyGet r.long_links (-endWidx).toNat
        let lk ← pyGet links endAidx
        pure lk.end_
    let newLink : LongLink := ⟨end_, origProbs, newHyp⟩
    let links0 ← pyGet r.long_links startWidx
    let r2 : UCN := { r with long_links := r.long_links.set startWidx (links0 ++ [newLink]) }
    let r3 ← if keep = false then deleteMatched false idxs r2 else pure r2
    pure (r3, true, true)

/-- The while loop of _replace (utterance.py lines 755-814), fuelled; the
match start index strictly increases so cn length + 1 iterations always
suffice on well-formed networks. -/
def replaceLoop (phrase repl : List String) (keep : Bool) :
    Nat → UCN → List (Int × Nat × Nat) → List (Int × Nat × Nat) → Bool → Bool →
    Except PyErr (UCN × List (Int × Nat × Nat) × Bool × Bool)
  | 0, r, _, acc, dn, uw => Except.ok (r, acc, dn, uw)
  | fuel + 1, r, idxs, acc, dn, uw =>
    match idxs with
    | [] => Except.ok (r, acc, dn, uw)
    | t0 :: _ => do
      let (r2, dn2, uw2) ← replaceOnce phrase repl keep idxs t0 r dn uw
      let idxs2 := getPhraseIdxs r2 phrase (t0.1.natAbs + 1) none true
      replaceLoop phrase repl keep fuel r2 idxs2 (acc ++ idxs) dn2 uw2

/-- UtteranceConfusionNetwork._replace (utterance.py lines 734-826).  The
deep copy taken when a first occurrence exists is modelled by the value
itself; every edit below acts on the copy, never on the receiver, so the
receiver value is returned unchanged by construction. -/
def uReplace (net : UCN) (phrase repl : List String) (keep : Bool) :
    Except PyErr (UCN × List (Int × Nat × Nat)) := do
  let idxs := getPhraseIdxs net phrase 0 none true
  let replaced := net
  let (r, acc, dn, uw) ←
    replaceLoop phrase repl keep (net.cn.length + 1) replaced idxs [] false false
  let r2 := if dn then normalise r none else r
  let r3 := if uw then { r2 with wordset := wordsOf r2 } else r2
  pure (r3, acc)

/-- UtteranceConfusionNetwork.replace (utterance.py lines 667-669). -/
def replace (net : UCN) (phrase repl : List String) : Except PyErr UCN :=
  (uReplace net phrase repl false).map Prod.fst

end UtteranceConfusionNetwork

/-- Four-slot network with one long link used in the C2 counterexample
(such links are exactly what _replace's general case creates). -/
def netMidLink : UCN := ⟨[[(1, "w0")], [(1, "w1")], [(1, "w2")], [(1, "w3")]],
  [[], [⟨3, [1/2, 1/2], (1/4, ["a", "b"])⟩], [], []],
  ["w0", "w1", "w2", "w3", "a", "b"]⟩

/-- C2 counterexample: replace finds an occurrence (the phrase b matches
the middle of the long link a-b) yet does not return a lattice at all:
with an empty replacement the deletion branch executes
del replaced._long_links[-widx][aidx][lsidx:] on a namedtuple, a TypeError
(utterance.py line 769). -/
theorem replace_matched_raises_on_midlink_deletion :
    UtteranceConfusionNetwork.getPhraseIdxs netMidLink ["b"] 0 none true ≠ [] ∧
    UtteranceConfusionNetwork.replace netMidLink ["b"] [] =
      Except.error PyErr.typeError := by
  decide

/-- C2 amended: a replace call that finds no occurrence returns the very
receiver, with no copy and no mutation (the loop body never runs, so the
returned object is self); when at least one occurrence is found, all edits
are applied to the deep copy, so the original is unchanged, and the copy
is returned unless the edit fails (it fails with a type error when an
occurrence starts midway inside a long link and the replacement is
empty). -/
theorem replace_no_match_returns_original :
    ∀ (net : UCN) (phrase repl : List String),
      UtteranceConfusionNetwork.getPhraseIdxs net phrase 0 none true = [] →
      UtteranceConfusionNetwork.replace net phrase repl = Except.ok net := by
  intro net phrase repl h
  unfold UtteranceConfusionNetwork.replace UtteranceConfusionNetwork.uReplace
  rw [h]
  rfl

/-- Witness for C2 at a concrete input. -/
theorem replace_no_match_returns_original_witness :
    UtteranceConfusionNetwork.replace netOneSlot ["zz"] ["y"] =
      Except.ok netOneSlot :=
  replace_no_match_returns_original netOneSlot ["zz"] ["y"] (by decide)

/-- Feature keys: the Python code uses both bare strings (__empty__) and
tuples of words (with skip markers such as *1) as dictionary keys. -/
inductive FeatKey where
  | str (s : String)
  | tup (ws : List String)
deriving DecidableEq

/-- defaultdict(float) accumulation: add v to the entry of k, inserting it
at the end on first use. -/
def featAdd : List (FeatKey × ℚ) → FeatKey → ℚ → List (FeatKey × ℚ)
  | [], k, v => [(k, v)]
  | kv :: rest, k, v =>
    if kv.1 = k then (k, kv.2 + v) :: rest else kv :: featAdd rest k v

namespace UtteranceConfusionNetwork

/-- UtteranceConfusionNetwork.iter_ngrams (utterance.py lines 1204-1290),
the long-link-aware generator, as the list of yielded (probability,
n-gram) pairs in yield order.  The fuel makes the recursion structural;
n units suffice since every recursive call lowers n by at least one. -/
def cnIterNgramsGo (net : UCN) :
    Nat → Nat → Bool → Option Nat → List (ℚ × List String)
  | 0, _, _, _ => []
  | fuel + 1, n, wb, start =>
    let startIter : Option (List Nat) :=
      match start with
      | some s =>
        if s < net.cn.length then some [s]
        else if s = net.cn.length ∧ wb then some []
        else none
      | none => some (List.range net.cn.length)
    match startIter with
    | none => []
    | some starts =>
      if n = 1 then
        (if wb ∧ start = none then [((1 : ℚ), [SENTENCE_START])] else []) ++
        starts.flatMap (fun si =>
          ((net.cn.getD si []).map (fun hyp => (hyp.1, [hyp.2]))) ++
          (net.long_links.getD si []).flatMap (fun link =>
            if link.hyp.2.length = 1 then [link.hyp]
            else if start ≠ none then [(link.hyp.1, [link.hyp.2.headD ""])]
            else link.hyp.2.map (fun word => (link.hyp.1, [word])))) ++
        (if (wb ∧ start = none) ∨ start = some net.cn.length then
          [((1 : ℚ), [SENTENCE_END])] else [])
      else if 1 < n then
        (if wb ∧ start = none then
          (cnIterNgramsGo net fuel (n - 1) wb (some 0)).map
            (fun pr => (pr.1, SENTENCE_START :: pr.2))
         else []) ++
        starts.flatMap (fun si =>
          ((net.cn.getD si []).flatMap (fun hyp =>
            (cnIterNgramsGo net fuel (n - 1) wb (some (si + 1))).map
              (fun sub => (sub.1 * hyp.1, hyp.2 :: sub.2)))) ++
          (net.long_links.getD si []).flatMap (fun link =>
            let lphr := link.hyp.2
            let lLen := lphr.length
            let prob := link.hyp.1
            ((List.range (lLen + 1 - n)).map
              (fun lsidx => (prob, (lphr.drop lsidx).take n))) ++
            (let minStart := if lLen = n then 1 else lLen - n
             let endStart := if start = none then lLen else 1
             (List.range' minStart (endStart - minStart)).flatMap (fun lsidx =>
               let lenPref := lLen - lsidx
               (cnIterNgramsGo net fuel (n - lenPref) wb (some link.end_)).map
                 (fun sub => (prob * sub.1, lphr.drop lsidx ++ sub.2))))))
      else []

def cnIterNgrams (net : UCN) (n : Nat) (wb : Bool) (start : Option Nat) :
    List (ℚ × List String) :=
  cnIterNgramsGo net n n wb start

/-- UtteranceConfusionNetwork.isempty (utterance.py lines 685-686). -/
def isempty (net : UCN) : Bool :=
  net.cn.isEmpty && net.long_links.all List.isEmpty

end UtteranceConfusionNetwork

/-- UtteranceFeatures.parse (utterance.py lines 408-442): n-gram and skip
n-gram counts; an empty utterance short-circuits to the __empty__ feature
before the feature type is examined; any type other than ngram raises
NotImplementedError.  (The final empty-feature check only prints.) -/
def uttFeatParse (type : String) (size : Nat) (utt : List String) (wb : Bool) :
    Except PyErr (List (FeatKey × ℚ)) :=
  if utt.isEmpty then
    Except.ok (featAdd [] (FeatKey.str "__empty__") 1)
  else if type = "ngram" then
    Except.ok (
      let m := utt.foldl (fun m w => featAdd m (FeatKey.tup [w]) 1) []
      let m := if 2 ≤ size then
          (Utterance.iterNgrams utt 2 wb).foldl
            (fun m ng => featAdd m (FeatKey.tup ng) 1) m
        else m
      let m := if 3 ≤ size then
          (Utterance.iterNgrams utt 3 wb).foldl
            (fun m ng => featAdd (featAdd m (FeatKey.tup ng) 1)
              (FeatKey.tup [ng.getD 0 "", "*1", ng.getD 2 ""]) 1) m
        else m
      let m := if 4 ≤ size then
          (Utterance.iterNgrams utt 4 wb).foldl
            (fun m ng => featAdd (featAdd m (FeatKey.tup ng) 1)
              (FeatKey.tup [ng.getD 0 "", "*2", ng.getD 3 ""]) 1) m
        else m
      (List.range' 5 (size + 1 - 5)).foldl (fun m len =>
        (Utterance.iterNgrams utt len wb).foldl
          (fun m ng => featAdd m (FeatKey.tup ng) 1) m) m)
  else Except.error PyErr.notImplementedError

/-- UtteranceConfusionNetworkFeatures.parse (utterance.py lines
1331-1369).  Fractional powers of probabilities (prob ** (1/k)) are not
rational, so the root function is a parameter: root p k models p**(1/k).
A non-empty confnet that yields no features raises the confnet
exception. -/
def cnFeatParse (root : ℚ → Nat → ℚ) (type : String) (size : Nat) (net : UCN) :
    Except PyErr (List (FeatKey × ℚ)) :=
  if net.isempty then
    Except.ok (featAdd [] (FeatKey.str "__empty__") 1)
  else if type = "ngram" then
    let m := net.cn.foldl (fun m alts =>
      alts.foldl (fun m hyp => featAdd m (FeatKey.tup [hyp.2]) hyp.1) m) []
    let m := if 2 ≤ size then
        (UtteranceConfusionNetwork.cnIterNgrams net 2 true none).foldl
          (fun m pr => featAdd m (FeatKey.tup pr.2) (root pr.1 2)) m
      else m
    let m := if 3 ≤ size then
        (UtteranceConfusionNetwork.cnIterNgrams net 3 true none).foldl
          (fun m pr => featAdd (featAdd m (FeatKey.tup pr.2) (root pr.1 3))
            (FeatKey.tup [pr.2.getD 0 "", "*1", pr.2.getD 2 ""]) (root pr.1 2)) m
      else m
    let m := if 4 ≤ size then
        (UtteranceConfusionNetwork.cnIterNgrams net 4 true none).foldl
          (fun m pr => featAdd (featAdd m (FeatKey.tup pr.2) (root pr.1 4))
            (FeatKey.tup [pr.2.getD 0 "", "*2", pr.2.getD 3 ""]) (root pr.1 2)) m
      else m
    let m := (List.range' 5 (size + 1 - 5)).foldl (fun m len =>
      (UtteranceConfusionNetwork.cnIterNgrams net len true none).foldl
        (fun m pr => featAdd m (FeatKey.tup pr.2) (root pr.1 len)) m) m
    if m.isEmpty then Except.error PyErr.confnetException else Except.ok m
  else Except.error PyErr.notImplementedError

/-- C9 counterexample: on an empty utterance, parse succeeds (adding the
__empty__ feature) even for a feature type other than ngram, because the
isempty short-circuit precedes the type check (utterance.py lines
410-411); likewise for an empty confusion network (lines 1333-1334). -/
theorem features_parse_empty_input_no_error :
    uttFeatParse "foo" 3 [] true = Except.ok [(FeatKey.str "__empty__", 1)] ∧
    ("foo" : String) ≠ "ngram" ∧
    cnFeatParse (fun p _ => p) "foo" 3 ⟨[], [], []⟩ =
      Except.ok [(FeatKey.str "__empty__", 1)] := by
  refine ⟨by decide, by decide, by decide⟩

/-- C9 amended: for every non-empty input (a non-empty utterance, or a
confusion network that is not isempty), a feature type other than ngram
makes parse fail with NotImplementedError, for both UtteranceFeatures and
UtteranceConfusionNetworkFeatures. -/
theorem features_parse_unsupported_type :
    (∀ (type : String) (size : Nat) (utt : List String) (wb : Bool),
      type ≠ "ngram" → utt ≠ [] →
      uttFeatParse type size utt wb = Except.error PyErr.notImplementedError) ∧
    (∀ (root : ℚ → Nat → ℚ) (type : String) (size : Nat) (net : UCN),
      type ≠ "ngram" → net.isempty = false →
      cnFeatParse root type size net = Except.error PyErr.notImplementedError) := by
  constructor
  · intro type size utt wb htype hne
    unfold uttFeatParse
    rw [if_neg (by simpa using hne), if_neg htype]
  · intro root type size net htype hne
    unfold cnFeatParse
    rw [if_neg (by simp [hne]), if_neg htype]

/-- Witness for C9 at concrete inputs. -/
theorem features_parse_unsupported_type_witness :
    uttFeatParse "foo" 3 ["a"] true = Except.error PyErr.notImplementedError ∧
    cnFeatParse (fun p _ => p) "bar" 3 netOneSlot =
      Except.error PyErr.notImplementedError := by
  constructor
  · exact features_parse_unsupported_type.1 "foo" 3 ["a"] true (by decide) (by decide)
  · exact features_parse_unsupported_type.2 (fun p _ => p) "bar" 3 netOneSlot
      (by decide) (by decide)

end Alex
